import Mathlib

/-!
soju `irc.go`: channel modes, membership ranks and the case-folding map.

A shallow embedding of the protocol-state core of `irc.go`.

* A Go `byte` is a natural number (its value, below 256); a Go `string` is the
  list of its bytes (`GoString`).
* A Go `map` is an association list (`GoMap`) read through `GoMap.get`; a write
  to a present key replaces the entry in place, a write to an absent key appends
  an entry, `delete` drops the entry. The list order stands for one enumeration
  order of the map and carries no other meaning: statements about maps are made
  through `GoMap.get`.
* A function that mutates its receiver returns the new value of the receiver.
-/

namespace Soju

/-- A Go string: the list of its bytes. -/
abbrev GoString := List Nat

/-- A Go map as an association list. -/
abbrev GoMap (κ : Type) (ν : Type) := List (κ × ν)

namespace GoMap

variable {κ ν : Type} [DecidableEq κ]

/-- The map read `v, ok := m[k]`: `none` when `ok` is false. -/
def get : GoMap κ ν → κ → Option ν
  | [], _ => none
  | (k1, v) :: rest, k => if k1 = k then some v else get rest k

/-- The map write `m[k] = v`. -/
def set : GoMap κ ν → κ → ν → GoMap κ ν
  | [], k, v => [(k, v)]
  | (k1, v1) :: rest, k, v => if k1 = k then (k, v) :: rest else (k1, v1) :: set rest k v

/-- The builtin `delete(m, k)`. -/
def delete : GoMap κ ν → κ → GoMap κ ν
  | [], _ => []
  | (k1, v1) :: rest, k => if k1 = k then delete rest k else (k1, v1) :: delete rest k

end GoMap

/-! ## Channel mode types -/

/-- Go `channelModeType`: the four standard channel mode types. -/
inductive channelModeType where
  | modeTypeA
  | modeTypeB
  | modeTypeC
  | modeTypeD
  deriving DecidableEq, Repr

open channelModeType

/-- Go `stdChannelModes`. -/
def stdChannelModes : GoMap Nat channelModeType :=
  [ (98, modeTypeA),   -- 'b' ban list
    (101, modeTypeA),  -- 'e' ban exception list
    (73, modeTypeA),   -- 'I' invite exception list
    (107, modeTypeB),  -- 'k' channel key
    (108, modeTypeC),  -- 'l' channel user limit
    (105, modeTypeD),  -- 'i' channel is invite-only
    (109, modeTypeD),  -- 'm' channel is moderated
    (110, modeTypeD),  -- 'n' channel has no external messages
    (115, modeTypeD),  -- 's' channel is secret
    (116, modeTypeD) ] -- 't' channel has protected topic

/-- Go `channelModes`: `map[byte]string`. -/
abbrev channelModes := GoMap Nat GoString

/-! ## Membership ranks -/

/-- Go `membership`. -/
structure membership where
  Mode : Nat
  Prefix : Nat
  deriving DecidableEq, Repr

/-- Go `stdMemberships`. -/
def stdMemberships : List membership :=
  [ ⟨113, 126⟩,  -- {'q', '~'} founder
    ⟨97, 38⟩,    -- {'a', '&'} protected
    ⟨111, 64⟩,   -- {'o', '@'} operator
    ⟨104, 37⟩,   -- {'h', '%'} halfop
    ⟨118, 43⟩ ]  -- {'v', '+'} voice

/-- Go `memberships`: a slice of `membership`. -/
abbrev memberships := List membership

namespace memberships

/-- The `for ... range availableMemberships` loop of `memberships.Add`, started
with index `i` on the ranks still to visit. `none` is the early `return` (the
rank is already held); `some i` is the index at which the loop is left, by
`break` or at the end of the range. -/
def addLoop (l : memberships) (newMembership : membership) :
    List membership → Nat → Option Nat
  | [], i => some i
  | availableMembership :: rest, i =>
    if h : i < l.length then
      if l[i] = availableMembership then
        if availableMembership = newMembership then none
        else addLoop l newMembership rest (i + 1)
      else if availableMembership = newMembership then some i
      else addLoop l newMembership rest i
    else some i

/-- Go `(*memberships).Add`: the new value of `*m`. After the loop the slice
grows by one, the tail from `i` is shifted right and `l[i] = newMembership`. -/
def Add (m : memberships) (availableMemberships : List membership)
    (newMembership : membership) : memberships :=
  match addLoop m newMembership availableMemberships 0 with
  | none => m
  | some i => m.take i ++ newMembership :: m.drop i

/-- The `for i, currentMembership := range l` loop of `memberships.Remove`:
the first element equal to `oldMembership` is cut out. -/
def removeLoop (oldMembership : membership) : List membership → List membership
  | [] => []
  | currentMembership :: rest =>
    if currentMembership = oldMembership then rest
    else currentMembership :: removeLoop oldMembership rest

/-- Go `(*memberships).Remove`: the new value of `*m`. -/
def Remove (m : memberships) (oldMembership : membership) : memberships :=
  removeLoop oldMembership m

end memberships

/-! ## The case-folding map -/

/-- Go `casemapping`. -/
abbrev casemapping := GoString → GoString

/-- Go `casemapNone`. -/
def casemapNone (name : GoString) : GoString := name

/-- Go `casemapEntry`, with the stored value at type `ν`. -/
structure casemapEntry (ν : Type) where
  originalKey : GoString
  value : ν

/-- Go `casemapMap`, with the stored values at type `ν`. -/
structure casemapMap (ν : Type) where
  innerMap : GoMap GoString (casemapEntry ν)
  casemap : casemapping

/-- Go `membershipsCasemapMap`: the values are `*memberships`. The pointers
stored are taken to be non-nil and pairwise distinct, so a value is the slice
pointed to. -/
abbrev membershipsCasemapMap := casemapMap memberships

namespace membershipsCasemapMap

/-- Go `(*membershipsCasemapMap).Value`: `none` is the nil pointer. -/
def Value (cm : membershipsCasemapMap) (name : GoString) : Option memberships :=
  match GoMap.get cm.innerMap (cm.casemap name) with
  | none => none
  | some entry => some entry.value

/-- A write `*m = l` through the pointer `m` returned by `Value name`: the entry
keeps its place and its original key, and holds the new slice. -/
def store (cm : membershipsCasemapMap) (name : GoString) (l : memberships) :
    membershipsCasemapMap :=
  match GoMap.get cm.innerMap (cm.casemap name) with
  | none => cm
  | some entry =>
    { cm with innerMap := GoMap.set cm.innerMap (cm.casemap name) { entry with value := l } }

end membershipsCasemapMap

/-! ## Channel state and `applyChannelModes` -/

/-- The fields of `upstreamConn` that `applyChannelModes` reads. -/
structure upstreamConn where
  availableChannelModes : GoMap Nat channelModeType
  availableMemberships : List membership

/-- The fields of `upstreamChannel` that `applyChannelModes` reads or writes.
`modes = none` is the nil map. -/
structure upstreamChannel where
  conn : upstreamConn
  modes : Option channelModes
  Members : membershipsCasemapMap

/-- The two errors of `applyChannelModes`, with the values their messages
are formatted from. -/
inductive modeError where
  | missingPlusMinus (modeStr : GoString)
  | missingArgument (modeStr : GoString) (plusMinus : Nat) (mode : Nat)
  deriving DecidableEq, Repr

/-- The local variables of `applyChannelModes` between two iterations of the
outer loop, with the channel they act on. -/
structure scanState where
  ch : upstreamChannel
  needMarshaling : GoMap Nat Unit
  nextArgument : Nat
  plusMinus : Nat

/-- The inner loop `for _, membership := range ch.conn.availableMemberships`
up to its `if membership.Mode == mode`: the first rank with this mode letter. -/
def findMembership (mode : Nat) : List membership → Option membership
  | [] => none
  | membership :: rest =>
    if membership.Mode = mode then some membership else findMembership mode rest

/-- The statement `ch.modes[mode] = argument` under `if ch.modes != nil`. -/
def setMode (ch : upstreamChannel) (mode : Nat) (argument : GoString) : upstreamChannel :=
  match ch.modes with
  | none => ch
  | some t => { ch with modes := some (GoMap.set t mode argument) }

/-- The statement `delete(ch.modes, mode)`: a no-op on the nil map. -/
def deleteMode (ch : upstreamChannel) (mode : Nat) : upstreamChannel :=
  match ch.modes with
  | none => ch
  | some t => { ch with modes := some (GoMap.delete t mode) }

/-- One iteration of the outer loop of `applyChannelModes` on the byte `mode`.
An error carries the channel as it is when the function returns. -/
def step (modeStr : GoString) (arguments : List GoString) (st : scanState) (mode : Nat) :
    Except (upstreamChannel × modeError) scanState :=
  if mode = 43 ∨ mode = 45 then
    .ok { st with plusMinus := mode }
  else if st.plusMinus ≠ 43 ∧ st.plusMinus ≠ 45 then
    .error (st.ch, .missingPlusMinus modeStr)
  else
    match findMembership mode st.ch.conn.availableMemberships with
    | some membership =>
      if h : st.nextArgument ≥ arguments.length then
        .error (st.ch, .missingArgument modeStr st.plusMinus mode)
      else
        let member := arguments.get ⟨st.nextArgument, Nat.lt_of_not_ge h⟩
        let members :=
          match st.ch.Members.Value member with
          | some m =>
            if st.plusMinus = 43 then
              st.ch.Members.store member (m.Add st.ch.conn.availableMemberships membership)
            else
              st.ch.Members.store member (m.Remove membership)
          | none => st.ch.Members
        .ok { ch := { st.ch with Members := members },
              needMarshaling := GoMap.set st.needMarshaling st.nextArgument (),
              nextArgument := st.nextArgument + 1,
              plusMinus := st.plusMinus }
    | none =>
      match GoMap.get st.ch.conn.availableChannelModes mode with
      | none => .ok st
      | some mt =>
        if mt = modeTypeA then
          .ok { st with nextArgument := st.nextArgument + 1 }
        else if mt = modeTypeB ∨ (mt = modeTypeC ∧ st.plusMinus = 43) then
          if st.plusMinus = 43 then
            let argument : GoString :=
              if h : st.nextArgument < arguments.length then
                arguments.get ⟨st.nextArgument, h⟩
              else []
            .ok { st with ch := setMode st.ch mode argument,
                          nextArgument := st.nextArgument + 1 }
          else
            .ok { st with ch := deleteMode st.ch mode,
                          nextArgument := st.nextArgument + 1 }
        else if mt = modeTypeC ∨ mt = modeTypeD then
          if st.plusMinus = 43 then
            .ok { st with ch := setMode st.ch mode [] }
          else
            .ok { st with ch := deleteMode st.ch mode }
        else .ok st

/-- The outer loop `for i := 0; i < len(modeStr); i++` on the bytes still to
scan. -/
def scan (modeStr : GoString) (arguments : List GoString) :
    List Nat → scanState → Except (upstreamChannel × modeError) scanState
  | [], st => .ok st
  | mode :: rest, st =>
    match step modeStr arguments st mode with
    | .ok st1 => scan modeStr arguments rest st1
    | .error e => .error e

/-- What a call of `applyChannelModes` leaves behind: the channel after the
call and the two results (`none` is nil). -/
structure applyResult where
  ch : upstreamChannel
  needMarshaling : Option (GoMap Nat Unit)
  err : Option modeError

/-- The locals of `applyChannelModes` before the loop: an empty
`needMarshaling`, `nextArgument := 0` and the zero byte in `plusMinus`. -/
def scanState.init (ch : upstreamChannel) : scanState :=
  { ch := ch, needMarshaling := [], nextArgument := 0, plusMinus := 0 }

/-- Go `applyChannelModes`. -/
def applyChannelModes (ch : upstreamChannel) (modeStr : GoString)
    (arguments : List GoString) : applyResult :=
  match scan modeStr arguments modeStr (scanState.init ch) with
  | .ok st => { ch := st.ch, needMarshaling := some st.needMarshaling, err := none }
  | .error (ch1, e) => { ch := ch1, needMarshaling := none, err := some e }

/-- A connection with the standard mode classification and rank tables. -/
def stdConn : upstreamConn :=
  { availableChannelModes := stdChannelModes, availableMemberships := stdMemberships }

/-- Go `newCasemapMap`: an empty index under `casemapNone`. -/
def newCasemapMap (ν : Type) : casemapMap ν :=
  { innerMap := [], casemap := casemapNone }

/-- A channel of `stdConn` with mode table `t` and no tracked member. -/
def stdChannel (t : Option channelModes) : upstreamChannel :=
  { conn := stdConn, modes := t, Members := newCasemapMap memberships }

/-! ## Rendering and parsing -/

/-- The Go conversion `string(b)` of a byte `b`: the UTF-8 encoding of the code
point `b`, which is the byte itself below 128 and two bytes from 128 on. -/
def stringOfByte (b : Nat) : GoString :=
  if b < 128 then [b] else [192 + b / 64, 128 + b % 64]

namespace memberships

/-- The loop `for i, membership := range m` of `memberships.Format`, which
fills `prefixes`. -/
def prefixesLoop : List membership → List Nat
  | [] => []
  | membership :: rest => membership.Prefix :: prefixesLoop rest

/-- Go `memberships.Format`. The argument `multiPrefix` is the value of
`dc.caps.IsEnabled("multi-prefix")`. -/
def Format (m : memberships) (multiPrefix : Bool) : GoString :=
  if !multiPrefix then
    match m with
    | [] => []
    | first :: _ => stringOfByte first.Prefix
  else prefixesLoop m

end memberships

/-- The two string builders and the parameter slice of `channelModes.Format`. -/
structure formatState where
  modesWithValues : GoString
  modesWithoutValues : GoString
  parameters : List GoString

namespace channelModes

/-- The loop `for mode, value := range cm` of `channelModes.Format`, on the
entries `range` still has to yield. -/
def formatLoop : List (Nat × GoString) → formatState → formatState
  | [], st => st
  | (mode, value) :: rest, st =>
    if value ≠ [] then
      formatLoop rest { st with modesWithValues := st.modesWithValues ++ stringOfByte mode,
                                parameters := st.parameters ++ [value] }
    else
      formatLoop rest { st with modesWithoutValues := st.modesWithoutValues ++ stringOfByte mode }

/-- Go `channelModes.Format`, on the entries of the table in the order in which
`range` yields them. -/
def Format (order : List (Nat × GoString)) : GoString × List GoString :=
  let st := formatLoop order
    { modesWithValues := [], modesWithoutValues := [], parameters := [] }
  (43 :: (st.modesWithValues ++ st.modesWithoutValues), st.parameters)

end channelModes

/-- Go `channelPublic`, the byte `=`. -/
def channelPublic : Nat := 61

/-- Go `channelSecret`, the byte `@`. -/
def channelSecret : Nat := 64

/-- Go `channelPrivate`, the byte `*`. -/
def channelPrivate : Nat := 42

/-- The two errors of `parseChannelStatus`, with the string their messages are
formatted from. -/
inductive statusError where
  | moreThanOneCharacter (s : GoString)
  | unknownStatus (s : GoString)
  deriving DecidableEq, Repr

/-- Go `parseChannelStatus`: the pair of results, or `none` when the index
expression `s[0]` is out of range and the function returns nothing. -/
def parseChannelStatus (s : GoString) : Option (Nat × Option statusError) :=
  if s.length > 1 then
    some (0, some (.moreThanOneCharacter s))
  else
    match s with
    | [] => none
    | cs :: _ =>
      if cs = channelPublic ∨ cs = channelSecret ∨ cs = channelPrivate then
        some (cs, none)
      else
        some (0, some (.unknownStatus s))

/-! ## Casemapping -/

/-- Go `casemapASCII`. For `r` between `A` and `Z` the byte sum `r + 'a' - 'A'`
stays below 256. -/
def casemapASCII (name : GoString) : GoString :=
  name.map fun r => if 65 ≤ r ∧ r ≤ 90 then r + 97 - 65 else r

/-- Go `casemapRFC1459`. -/
def casemapRFC1459 (name : GoString) : GoString :=
  name.map fun r =>
    if 65 ≤ r ∧ r ≤ 90 then r + 97 - 65
    else if r = 123 then 91       -- '{' to '['
    else if r = 125 then 93       -- '}' to ']'
    else if r = 92 then 124       -- '\\' to '|'
    else if r = 126 then 94       -- '~' to '^'
    else r

/-- Go `casemapRFC1459Strict`. -/
def casemapRFC1459Strict (name : GoString) : GoString :=
  name.map fun r =>
    if 65 ≤ r ∧ r ≤ 90 then r + 97 - 65
    else if r = 123 then 91       -- '{' to '['
    else if r = 125 then 93       -- '}' to ']'
    else if r = 92 then 124       -- '\\' to '|'
    else r

/-- The loop `for i, r := range nameBytes` of `partialCasemap` from index `i`
on: `none` when the index expression `nameFullyCM[i]` is out of range. -/
def partialCasemapLoop (nameFullyCM : GoString) : Nat → List Nat → Option (List Nat)
  | _, [] => some []
  | i, r :: rest =>
    if ¬(65 ≤ r ∧ r ≤ 90) ∧ ¬(97 ≤ r ∧ r ≤ 122) then
      match nameFullyCM[i]? with
      | none => none
      | some b => (partialCasemapLoop nameFullyCM (i + 1) rest).map fun s => b :: s
    else
      (partialCasemapLoop nameFullyCM (i + 1) rest).map fun s => r :: s

/-- Go `partialCasemap`: `none` when an index is out of range. -/
def partialCasemap (higher : casemapping) (name : GoString) : Option GoString :=
  partialCasemapLoop (higher name) 0 name

/-! ## Operations of the case-folding map -/

namespace casemapMap

variable {ν : Type}

/-- The map read `cm.innerMap[cm.casemap(name)]`. -/
def entryOf (cm : casemapMap ν) (name : GoString) : Option (casemapEntry ν) :=
  GoMap.get cm.innerMap (cm.casemap name)

/-- Go `(*casemapMap).OriginalKey`. -/
def OriginalKey (cm : casemapMap ν) (name : GoString) : GoString × Bool :=
  match GoMap.get cm.innerMap (cm.casemap name) with
  | none => ([], false)
  | some entry => (entry.originalKey, true)

/-- Go `(*casemapMap).Has`. -/
def Has (cm : casemapMap ν) (name : GoString) : Bool :=
  match GoMap.get cm.innerMap (cm.casemap name) with
  | none => false
  | some _ => true

/-- Go `(*casemapMap).Len`. -/
def Len (cm : casemapMap ν) : Nat :=
  cm.innerMap.length

/-- Go `(*casemapMap).SetValue`. -/
def SetValue (cm : casemapMap ν) (name : GoString) (value : ν) : casemapMap ν :=
  let nameCM := cm.casemap name
  match GoMap.get cm.innerMap nameCM with
  | none =>
    { cm with innerMap :=
        GoMap.set cm.innerMap nameCM { originalKey := name, value := value } }
  | some entry =>
    { cm with innerMap := GoMap.set cm.innerMap nameCM { entry with value := value } }

/-- Go `(*casemapMap).Delete`. -/
def Delete (cm : casemapMap ν) (name : GoString) : casemapMap ν :=
  { cm with innerMap := GoMap.delete cm.innerMap (cm.casemap name) }

/-- The loop `for _, entry := range cm.innerMap` of `SetCasemapping`, on the
entries `range` still has to yield, with `newInnerMap` as built so far. -/
def setCasemappingLoop (newCasemap : casemapping) :
    List (GoString × casemapEntry ν) → GoMap GoString (casemapEntry ν) →
      GoMap GoString (casemapEntry ν)
  | [], newInnerMap => newInnerMap
  | (_, entry) :: rest, newInnerMap =>
    setCasemappingLoop newCasemap rest
      (GoMap.set newInnerMap (newCasemap entry.originalKey) entry)

/-- Go `(*casemapMap).SetCasemapping`, with the entries of `cm.innerMap` in the
order in which `range` yields them. -/
def SetCasemapping (newCasemap : casemapping)
    (order : List (GoString × casemapEntry ν)) : casemapMap ν :=
  { innerMap := setCasemappingLoop newCasemap order [], casemap := newCasemap }

end casemapMap

/-- The representation invariant of the case-folding map: the index holds no
key twice, and every entry is filed under the canonical form of its own
original key. `newCasemapMap` establishes it and `SetValue`, `Delete` and
`SetCasemapping` keep it. -/
def casemapMap.WF {ν : Type} (cm : casemapMap ν) : Prop :=
  (cm.innerMap.map Prod.fst).Nodup
  ∧ ∀ e ∈ cm.innerMap, e.1 = cm.casemap e.2.originalKey

/-! ## Definitions used to state and prove the claims -/

/-- The members of a channel after a membership letter under sign `plusMinus`
was applied to `name` with rank `r`: the body of `if m != nil`. -/
def membersAfter (ch : upstreamChannel) (plusMinus : Nat) (r : membership)
    (name : GoString) : membershipsCasemapMap :=
  match ch.Members.Value name with
  | some m =>
    if plusMinus = 43 then ch.Members.store name (m.Add ch.conn.availableMemberships r)
    else ch.Members.store name (m.Remove r)
  | none => ch.Members

/-- A channel of connection `conn` with the nil mode table whose one tracked
member is `"alice"`, holding no rank, under `casemapNone`. -/
def aliceChannel (conn : upstreamConn) : upstreamChannel :=
  { conn := conn, modes := none,
    Members := { innerMap := [([97, 108, 105, 99, 101], ⟨[97, 108, 105, 99, 101], []⟩)],
                 casemap := casemapNone } }

/-- The indices C4 describes, in the words of the claim: the cursor values at
which a membership letter is met, where the cursor advances by one for each
membership letter, type-A letter, type-B letter and type-C letter under `+`,
and stays for a type-C letter under another sign, a type-D letter, an
unrecognized letter and a sign character; a membership letter that is also
classified counts as a membership letter. -/
def cursorIndices (conn : upstreamConn) : Nat → Nat → List Nat → List Nat
  | _, _, [] => []
  | sign, cursor, c :: rest =>
    if c = 43 ∨ c = 45 then cursorIndices conn c cursor rest
    else if c ∈ conn.availableMemberships.map membership.Mode then
      cursor :: cursorIndices conn sign (cursor + 1) rest
    else
      match GoMap.get conn.availableChannelModes c with
      | some modeTypeA => cursorIndices conn sign (cursor + 1) rest
      | some modeTypeB => cursorIndices conn sign (cursor + 1) rest
      | some modeTypeC =>
        if sign = 43 then cursorIndices conn sign (cursor + 1) rest
        else cursorIndices conn sign cursor rest
      | some modeTypeD => cursorIndices conn sign cursor rest
      | none => cursorIndices conn sign cursor rest

/-- The channel a run of the loop leaves behind, on success and on error. -/
def resultCh : Except (upstreamChannel × modeError) scanState → upstreamChannel
  | .ok st => st.ch
  | .error (ch, _) => ch

/-- The error `e` as formatted for the mode string `modeStr`. -/
def modeError.retag (modeStr : GoString) : modeError → modeError
  | .missingPlusMinus _ => .missingPlusMinus modeStr
  | .missingArgument _ plusMinus mode => .missingArgument modeStr plusMinus mode

/-- A loop result with its error formatted for the mode string `modeStr`. -/
def retagResult (modeStr : GoString) :
    Except (upstreamChannel × modeError) scanState → Except (upstreamChannel × modeError) scanState
  | .ok st => .ok st
  | .error (ch, e) => .error (ch, e.retag modeStr)

/-- The channel `ch` with the nil mode table in place of its own. -/
def forgetModes (ch : upstreamChannel) : upstreamChannel :=
  { ch with modes := none }

/-- A loop result with the nil mode table in place of the channel's own. -/
def forgetResult :
    Except (upstreamChannel × modeError) scanState → Except (upstreamChannel × modeError) scanState
  | .ok st => .ok { st with ch := forgetModes st.ch }
  | .error (ch, e) => .error (forgetModes ch, e)

namespace memberships

/-- The loop of `memberships.Add` told on the part of the slice from the index
on: `none` when the rank is met in the slice, else that part with the new rank
inserted where the loop is left. Used to reason about `addLoop`. -/
def addWalk (newMembership : membership) :
    List membership → List membership → Option (List membership)
  | [], s => some (newMembership :: s)
  | _ :: _, [] => some [newMembership]
  | a :: rest, x :: s =>
    if x = a then
      if a = newMembership then none
      else (addWalk newMembership rest s).map (fun res => x :: res)
    else if a = newMembership then some (newMembership :: x :: s)
    else addWalk newMembership rest (x :: s)

/-- The slice a result of `addWalk` on the part `s` stands for. -/
def walkResult (s : List membership) : Option (List membership) → List membership
  | none => s
  | some res => res

/-- The slice `Add` builds from a result of `addLoop`. -/
def loopResult (l : memberships) (newMembership : membership) : Option Nat → memberships
  | none => l
  | some i => l.take i ++ newMembership :: l.drop i

end memberships

/-- The table after the entries of `l` were written to `t`, first to last. -/
def setAll (t : channelModes) (l : List (Nat × GoString)) : channelModes :=
  l.foldl (fun acc e => GoMap.set acc e.1 e.2) t

/-! ## Lemmas on maps -/

namespace GoMap

variable {κ ν : Type} [DecidableEq κ]

theorem get_set_self (m : GoMap κ ν) (k : κ) (v : ν) : get (set m k v) k = some v := by
  induction m with
  | nil => simp [set, get]
  | cons e rest ih =>
    obtain ⟨k1, v1⟩ := e
    by_cases h : k1 = k <;> simp [set, get, h, ih]

theorem get_set_other (m : GoMap κ ν) (k d : κ) (v : ν) (hd : d ≠ k) :
    get (set m k v) d = get m d := by
  induction m with
  | nil => simp [set, get, Ne.symm hd]
  | cons e rest ih =>
    obtain ⟨k1, v1⟩ := e
    by_cases h : k1 = k
    · subst h
      simp [set, get, Ne.symm hd]
    · simp [set, get, h, ih]

theorem get_delete_self (m : GoMap κ ν) (k : κ) : get (delete m k) k = none := by
  induction m with
  | nil => simp [delete, get]
  | cons e rest ih =>
    obtain ⟨k1, v1⟩ := e
    by_cases h : k1 = k <;> simp [delete, get, h, ih]

theorem get_delete_other (m : GoMap κ ν) (k d : κ) (hd : d ≠ k) :
    get (delete m k) d = get m d := by
  induction m with
  | nil => simp [delete, get]
  | cons e rest ih =>
    obtain ⟨k1, v1⟩ := e
    by_cases h : k1 = k
    · subst h
      simp [delete, get, Ne.symm hd, ih]
    · simp [delete, get, h, ih]

end GoMap

theorem findMembership_eq_none (mode : Nat) (l : List membership)
    (h : ∀ r ∈ l, r.Mode ≠ mode) : findMembership mode l = none := by
  induction l with
  | nil => rfl
  | cons r rest ih =>
    have h1 : r.Mode ≠ mode := h r (List.mem_cons_self _ _)
    simp [findMembership, h1]
    exact ih (fun x hx => h x (List.mem_cons_of_mem _ hx))

/-! ## Claims on `applyChannelModes` -/

/-- C1. Type-D flags. On a channel with a non-nil mode table `T`, for a mode
letter `c` (a byte other than the sign characters `+` and `-`) that is no
membership letter and is classified type D, and for any argument list:
`"+c"` succeeds with an empty `needMarshaling`, leaves the argument cursor at 0
and turns the table into `T` with `c` mapped to the empty string; `"-c"`
succeeds likewise and turns the table into `T` without `c`; every other key
reads as before, and nothing but the mode table changes. -/
theorem applyChannelModes_typeD (ch : upstreamChannel) (T : channelModes) (c : Nat)
    (arguments : List GoString)
    (hT : ch.modes = some T)
    (hletter : c ≠ 43 ∧ c ≠ 45)
    (hmem : ∀ r ∈ ch.conn.availableMemberships, r.Mode ≠ c)
    (hD : GoMap.get ch.conn.availableChannelModes c = some modeTypeD) :
    (applyChannelModes ch [43, c] arguments =
        { ch := { ch with modes := some (GoMap.set T c []) },
          needMarshaling := some [], err := none }
      ∧ (scan [43, c] arguments [43, c] (scanState.init ch)).toOption.map
          scanState.nextArgument = some 0
      ∧ GoMap.get (GoMap.set T c []) c = some []
      ∧ ∀ d, d ≠ c → GoMap.get (GoMap.set T c []) d = GoMap.get T d)
    ∧ (applyChannelModes ch [45, c] arguments =
        { ch := { ch with modes := some (GoMap.delete T c) },
          needMarshaling := some [], err := none }
      ∧ (scan [45, c] arguments [45, c] (scanState.init ch)).toOption.map
          scanState.nextArgument = some 0
      ∧ GoMap.get (GoMap.delete T c) c = none
      ∧ ∀ d, d ≠ c → GoMap.get (GoMap.delete T c) d = GoMap.get T d) := by
  have hm := findMembership_eq_none c _ hmem
  obtain ⟨h1, h2⟩ := hletter
  refine ⟨⟨?_, ?_, GoMap.get_set_self T c [], fun d hd => GoMap.get_set_other T c d [] hd⟩,
    ⟨?_, ?_, GoMap.get_delete_self T c, fun d hd => GoMap.get_delete_other T c d hd⟩⟩
  · simp [applyChannelModes, scan, step, scanState.init, h1, h2, hm, hD, setMode, hT]
  · simp [scan, step, scanState.init, h1, h2, hm, hD, Except.toOption]
  · simp [applyChannelModes, scan, step, scanState.init, h1, h2, hm, hD, deleteMode, hT]
  · simp [scan, step, scanState.init, h1, h2, hm, hD, Except.toOption]

/-- C1, at the standard tables: the theorem at the flag `n` on the table
`{t:""}`, and the two runs of the specification: `"+nt"` without arguments on
the empty table gives `{n:"", t:""}`, and `"-n"` on that table gives `{t:""}`. -/
theorem applyChannelModes_typeD_witness :
    (applyChannelModes (stdChannel (some [(116, [])])) [43, 110] [] =
        { ch := { stdChannel (some [(116, [])]) with
                  modes := some (GoMap.set [(116, [])] 110 []) },
          needMarshaling := some [], err := none })
    ∧ (applyChannelModes (stdChannel (some [])) [43, 110, 116] []).ch.modes
        = some [(110, []), (116, [])]
    ∧ (applyChannelModes (stdChannel (some [])) [43, 110, 116] []).err = none
    ∧ (applyChannelModes (stdChannel (some [(110, []), (116, [])])) [45, 110] []).ch.modes
        = some [(116, [])]
    ∧ (applyChannelModes (stdChannel (some [(110, []), (116, [])])) [45, 110] []).err = none :=
  ⟨(applyChannelModes_typeD (stdChannel (some [(116, [])])) [(116, [])] 110 [] rfl
      (by decide) (by decide) (by decide)).1.1,
    by decide, by decide, by decide, by decide⟩

/-- C2. Type-B and type-C settings. On a channel with a non-nil mode table `T`,
for a mode letter `c` (a byte other than the sign characters) that is no
membership letter and is classified type B or type C: `"+c"` with arguments
`[a]` succeeds and turns the table into `T` with `c` mapped to `a`; `"-c"` with
no argument succeeds and turns the table into `T` without `c`; and when `c` is
type C, `"-c"` leaves the argument cursor at 0 for any argument list, so that in
`"-c+d"` with arguments `a :: rest` a type-B or type-C letter `d` is set to `a`,
the argument at index 0. -/
theorem applyChannelModes_typeBC (ch : upstreamChannel) (T : channelModes) (c : Nat)
    (a : GoString)
    (hT : ch.modes = some T)
    (hletter : c ≠ 43 ∧ c ≠ 45)
    (hmem : ∀ r ∈ ch.conn.availableMemberships, r.Mode ≠ c)
    (hBC : GoMap.get ch.conn.availableChannelModes c = some modeTypeB
      ∨ GoMap.get ch.conn.availableChannelModes c = some modeTypeC) :
    (applyChannelModes ch [43, c] [a] =
        { ch := { ch with modes := some (GoMap.set T c a) },
          needMarshaling := some [], err := none }
      ∧ GoMap.get (GoMap.set T c a) c = some a
      ∧ ∀ d, d ≠ c → GoMap.get (GoMap.set T c a) d = GoMap.get T d)
    ∧ (applyChannelModes ch [45, c] [] =
        { ch := { ch with modes := some (GoMap.delete T c) },
          needMarshaling := some [], err := none }
      ∧ GoMap.get (GoMap.delete T c) c = none
      ∧ ∀ d, d ≠ c → GoMap.get (GoMap.delete T c) d = GoMap.get T d)
    ∧ (GoMap.get ch.conn.availableChannelModes c = some modeTypeC →
        (∀ arguments : List GoString,
          (scan [45, c] arguments [45, c] (scanState.init ch)).toOption.map
            scanState.nextArgument = some 0)
        ∧ ∀ (d : Nat) (rest : List GoString), (d ≠ 43 ∧ d ≠ 45) →
            (∀ r ∈ ch.conn.availableMemberships, r.Mode ≠ d) →
            (GoMap.get ch.conn.availableChannelModes d = some modeTypeB
              ∨ GoMap.get ch.conn.availableChannelModes d = some modeTypeC) →
            applyChannelModes ch [45, c, 43, d] (a :: rest) =
              { ch := { ch with modes := some (GoMap.set (GoMap.delete T c) d a) },
                needMarshaling := some [], err := none }) := by
  have hm := findMembership_eq_none c _ hmem
  obtain ⟨h1, h2⟩ := hletter
  refine ⟨⟨?_, GoMap.get_set_self T c a, fun d hd => GoMap.get_set_other T c d a hd⟩,
    ⟨?_, GoMap.get_delete_self T c, fun d hd => GoMap.get_delete_other T c d hd⟩, ?_⟩
  · rcases hBC with hB | hC
    · simp [applyChannelModes, scan, step, scanState.init, h1, h2, hm, hB, setMode, hT]
    · simp [applyChannelModes, scan, step, scanState.init, h1, h2, hm, hC, setMode, hT]
  · rcases hBC with hB | hC
    · simp [applyChannelModes, scan, step, scanState.init, h1, h2, hm, hB, deleteMode, hT]
    · simp [applyChannelModes, scan, step, scanState.init, h1, h2, hm, hC, deleteMode, hT]
  · intro hC
    refine ⟨fun arguments => ?_, fun d rest hdl hdm hdBC => ?_⟩
    · simp [scan, step, scanState.init, h1, h2, hm, hC, Except.toOption]
    · have hmd := findMembership_eq_none d _ hdm
      obtain ⟨hd1, hd2⟩ := hdl
      rcases hdBC with hB | hC2
      · simp [applyChannelModes, scan, step, scanState.init, h1, h2, hm, hC, hd1, hd2, hmd,
          hB, setMode, deleteMode, hT]
      · simp [applyChannelModes, scan, step, scanState.init, h1, h2, hm, hC, hd1, hd2, hmd,
          hC2, setMode, deleteMode, hT]

/-- C2, at the standard tables: the theorem at the channel key `k` with the
argument `"secretkey"` on the empty table, and the run of the specification:
`"+k"` with `["secretkey"]` gives `{k:"secretkey"}`, then `"-k"` without
argument gives the table without `k`. -/
theorem applyChannelModes_typeBC_witness :
    (applyChannelModes (stdChannel (some [])) [43, 107]
        [[115, 101, 99, 114, 101, 116, 107, 101, 121]] =
        { ch := { stdChannel (some []) with
                  modes := some (GoMap.set [] 107 [115, 101, 99, 114, 101, 116, 107, 101, 121]) },
          needMarshaling := some [], err := none })
    ∧ (applyChannelModes (stdChannel (some [])) [43, 107]
        [[115, 101, 99, 114, 101, 116, 107, 101, 121]]).ch.modes
        = some [(107, [115, 101, 99, 114, 101, 116, 107, 101, 121])]
    ∧ (applyChannelModes
        (stdChannel (some [(107, [115, 101, 99, 114, 101, 116, 107, 101, 121])]))
        [45, 107] []).ch.modes = some []
    ∧ (applyChannelModes
        (stdChannel (some [(107, [115, 101, 99, 114, 101, 116, 107, 101, 121])]))
        [45, 107] []).err = none :=
  ⟨(applyChannelModes_typeBC (stdChannel (some [])) [] 107
      [115, 101, 99, 114, 101, 116, 107, 101, 121] rfl
      (by decide) (by decide) (Or.inl (by decide))).1.1,
    by decide, by decide, by decide⟩

theorem findMembership_of_pairwise (r : membership) (l : List membership)
    (hmem : r ∈ l) (hdist : l.Pairwise (fun x y => x.Mode ≠ y.Mode)) :
    findMembership r.Mode l = some r := by
  induction l with
  | nil => simp at hmem
  | cons x rest ih =>
    rw [List.pairwise_cons] at hdist
    rcases List.mem_cons.mp hmem with h | h
    · subst h
      simp [findMembership]
    · have hx : x.Mode ≠ r.Mode := hdist.1 r h
      simp [findMembership, hx]
      exact ih h hdist.2

namespace membershipsCasemapMap

theorem Value_store (cm : membershipsCasemapMap) (name : GoString) (l m : memberships)
    (h : cm.Value name = some m) (name1 : GoString) :
    (cm.store name l).Value name1 =
      if cm.casemap name1 = cm.casemap name then some l else cm.Value name1 := by
  unfold Value at h
  cases hg : GoMap.get cm.innerMap (cm.casemap name) with
  | none => simp [hg] at h
  | some entry =>
    by_cases hk : cm.casemap name1 = cm.casemap name
    · simp [store, Value, hg, hk, GoMap.get_set_self]
    · simp [store, Value, hg, hk, GoMap.get_set_other _ _ _ _ hk]

end membershipsCasemapMap

/-- C3, as amended. Membership letters. Let `r` be the first rank of the
connection's available ranks that carries its mode letter, the letter being no
sign character. Then `"+"` followed by that letter, with arguments `[name]`,
succeeds with `needMarshaling = {0}`, and so does `"-"` followed by it. If
`name` is tracked with set `m` (looked up through the case-folding map), its
set becomes `m.Add(availableRanks, r)` under `+` and `m.Remove(r)` under `-`,
and every name of another canonical form reads as before; if `name` is not
tracked, the member map is unchanged. The mode table and the connection are
unchanged in every case. -/
theorem applyChannelModes_membership (ch : upstreamChannel) (r : membership)
    (name : GoString)
    (hfirst : findMembership r.Mode ch.conn.availableMemberships = some r)
    (hletter : r.Mode ≠ 43 ∧ r.Mode ≠ 45) :
    applyChannelModes ch [43, r.Mode] [name] =
        { ch := { ch with Members := membersAfter ch 43 r name },
          needMarshaling := some [(0, ())], err := none }
    ∧ applyChannelModes ch [45, r.Mode] [name] =
        { ch := { ch with Members := membersAfter ch 45 r name },
          needMarshaling := some [(0, ())], err := none }
    ∧ (∀ m, ch.Members.Value name = some m →
        (membersAfter ch 43 r name).Value name
            = some (m.Add ch.conn.availableMemberships r)
        ∧ (membersAfter ch 45 r name).Value name = some (m.Remove r)
        ∧ ∀ name1, ch.Members.casemap name1 ≠ ch.Members.casemap name →
            (membersAfter ch 43 r name).Value name1 = ch.Members.Value name1
            ∧ (membersAfter ch 45 r name).Value name1 = ch.Members.Value name1)
    ∧ (ch.Members.Value name = none →
        membersAfter ch 43 r name = ch.Members ∧ membersAfter ch 45 r name = ch.Members) := by
  obtain ⟨h1, h2⟩ := hletter
  refine ⟨?_, ?_, ?_, ?_⟩
  · cases hv : ch.Members.Value name <;>
      simp [applyChannelModes, scan, step, scanState.init, h1, h2, hfirst, membersAfter, hv,
        GoMap.set]
  · cases hv : ch.Members.Value name <;>
      simp [applyChannelModes, scan, step, scanState.init, h1, h2, hfirst, membersAfter, hv,
        GoMap.set]
  · intro m hm
    refine ⟨?_, ?_, fun name1 hne => ⟨?_, ?_⟩⟩
    · simp [membersAfter, hm, membershipsCasemapMap.Value_store _ _ _ m hm]
    · simp [membersAfter, hm, membershipsCasemapMap.Value_store _ _ _ m hm]
    · simp [membersAfter, hm, membershipsCasemapMap.Value_store _ _ _ m hm, hne]
    · simp [membersAfter, hm, membershipsCasemapMap.Value_store _ _ _ m hm, hne]
  · intro hn
    simp [membersAfter, hn]

/-- C3, at the standard ranks: `"+o"` with `["alice"]` on the tracked member
`alice` holding no rank gives her the set `[(o,@)]` and `needMarshaling = {0}`. -/
theorem applyChannelModes_membership_witness :
    (applyChannelModes (aliceChannel stdConn) [43, 111] [[97, 108, 105, 99, 101]] =
        { ch := { aliceChannel stdConn with
                  Members := membersAfter (aliceChannel stdConn) 43 ⟨111, 64⟩
                    [97, 108, 105, 99, 101] },
          needMarshaling := some [(0, ())], err := none })
    ∧ (membersAfter (aliceChannel stdConn) 43 ⟨111, 64⟩ [97, 108, 105, 99, 101]).Value
        [97, 108, 105, 99, 101] = some [⟨111, 64⟩] :=
  ⟨(applyChannelModes_membership (aliceChannel stdConn) ⟨111, 64⟩ [97, 108, 105, 99, 101]
      (by decide) (by decide)).1, by decide⟩

/-- C3 as stated fails for a rank that shares its mode letter with an earlier
rank. With available ranks `[(o,@), (o,!)]` the rank `(o,!)` is in the list, yet
`"+o"` with `["alice"]` gives the tracked member `alice` the set `[(o,@)]`,
while `Add(availableRanks, (o,!))` on her empty set is `[(o,!)]`. -/
theorem applyChannelModes_membership_counterexample :
    (⟨111, 33⟩ : membership) ∈
        (aliceChannel ⟨stdChannelModes, [⟨111, 64⟩, ⟨111, 33⟩]⟩).conn.availableMemberships
    ∧ (aliceChannel ⟨stdChannelModes, [⟨111, 64⟩, ⟨111, 33⟩]⟩).Members.Value
        [97, 108, 105, 99, 101] = some []
    ∧ (applyChannelModes (aliceChannel ⟨stdChannelModes, [⟨111, 64⟩, ⟨111, 33⟩]⟩)
        [43, 111] [[97, 108, 105, 99, 101]]).ch.Members.Value [97, 108, 105, 99, 101]
        = some [⟨111, 64⟩]
    ∧ memberships.Add [] [⟨111, 64⟩, ⟨111, 33⟩] ⟨111, 33⟩ = [⟨111, 33⟩] := by
  refine ⟨by decide, by decide, by decide, by decide⟩

theorem findMembership_some_mem (mode : Nat) (l : List membership) (r : membership)
    (h : findMembership mode l = some r) : mode ∈ l.map membership.Mode := by
  induction l with
  | nil => simp [findMembership] at h
  | cons x rest ih =>
    by_cases hx : x.Mode = mode
    · simp [hx]
    · simp [findMembership, hx] at h
      simp [ih h]

theorem findMembership_none_not_mem (mode : Nat) (l : List membership)
    (h : findMembership mode l = none) : mode ∉ l.map membership.Mode := by
  induction l with
  | nil => simp
  | cons x rest ih =>
    by_cases hx : x.Mode = mode
    · simp [findMembership, hx] at h
    · simp [findMembership, hx] at h
      have := ih h
      simp only [List.map_cons, List.mem_cons, not_or]
      exact ⟨fun e => hx e.symm, this⟩

theorem GoMap.isSome_get_set_unit (m : GoMap Nat Unit) (k i : Nat) :
    (GoMap.get (GoMap.set m k ()) i).isSome ↔ (GoMap.get m i).isSome ∨ i = k := by
  by_cases h : i = k
  · subst h
    simp [GoMap.get_set_self]
  · simp [GoMap.get_set_other _ _ _ _ h, h]

theorem setMode_conn (ch : upstreamChannel) (c : Nat) (a : GoString) :
    (setMode ch c a).conn = ch.conn := by
  unfold setMode; cases ch.modes <;> rfl

theorem deleteMode_conn (ch : upstreamChannel) (c : Nat) :
    (deleteMode ch c).conn = ch.conn := by
  unfold deleteMode; cases ch.modes <;> rfl

/-- One successful iteration against the cursor walk of C4: the connection is
kept, and the indices recorded in this iteration are the head of the walk. -/
theorem step_ok_cursor (modeStr : GoString) (arguments : List GoString) (st st1 : scanState)
    (c : Nat) (rest : List Nat) (h : step modeStr arguments st c = .ok st1) :
    st1.ch.conn = st.ch.conn
    ∧ ∃ idx : List Nat,
        cursorIndices st.ch.conn st.plusMinus st.nextArgument (c :: rest)
          = idx ++ cursorIndices st.ch.conn st1.plusMinus st1.nextArgument rest
        ∧ (∀ i, (GoMap.get st1.needMarshaling i).isSome
            ↔ (GoMap.get st.needMarshaling i).isSome ∨ i ∈ idx)
        ∧ ∀ i ∈ idx, i < arguments.length := by
  unfold step at h
  by_cases hs : c = 43 ∨ c = 45
  · simp only [hs, if_true] at h
    cases h
    exact ⟨rfl, [], by simp [cursorIndices, hs], by simp, by simp⟩
  · simp only [hs, if_false] at h
    by_cases hp : st.plusMinus ≠ 43 ∧ st.plusMinus ≠ 45
    · simp [hp] at h
    · simp only [hp, if_false] at h
      cases hf : findMembership c st.ch.conn.availableMemberships with
      | some r =>
        have hmem := findMembership_some_mem _ _ _ hf
        simp only [hf] at h
        by_cases ha : st.nextArgument ≥ arguments.length
        · simp [ha] at h
        · simp only [ha, dite_false] at h
          cases h
          refine ⟨rfl, [st.nextArgument], ?_, ?_, ?_⟩
          · simp only [cursorIndices, hs, if_false, hmem, if_true]
            rfl
          · intro i
            simp [GoMap.isSome_get_set_unit]
          · intro i hi
            simp at hi
            omega
      | none =>
        have hmem := findMembership_none_not_mem _ _ hf
        simp only [hf] at h
        cases hc : GoMap.get st.ch.conn.availableChannelModes c with
        | none =>
          simp only [hc] at h
          cases h
          exact ⟨rfl, [], by simp [cursorIndices, hs, hmem, hc], by simp, by simp⟩
        | some mt =>
          simp only [hc] at h
          cases mt with
          | modeTypeA =>
            simp at h
            cases h
            exact ⟨rfl, [], by simp [cursorIndices, hs, hmem, hc], by simp, by simp⟩
          | modeTypeB =>
            by_cases h43 : st.plusMinus = 43
            · simp [h43] at h
              cases h
              exact ⟨setMode_conn _ _ _, [], by simp [cursorIndices, hs, hmem, hc, h43], by simp,
                by simp⟩
            · simp [h43] at h
              cases h
              exact ⟨deleteMode_conn _ _, [], by simp [cursorIndices, hs, hmem, hc], by simp,
                by simp⟩
          | modeTypeC =>
            by_cases h43 : st.plusMinus = 43
            · simp [h43] at h
              cases h
              exact ⟨setMode_conn _ _ _, [], by simp [cursorIndices, hs, hmem, hc, h43],
                by simp, by simp⟩
            · simp [h43] at h
              cases h
              exact ⟨deleteMode_conn _ _, [], by simp [cursorIndices, hs, hmem, hc, h43],
                by simp, by simp⟩
          | modeTypeD =>
            by_cases h43 : st.plusMinus = 43
            · simp [h43] at h
              cases h
              exact ⟨setMode_conn _ _ _, [], by simp [cursorIndices, hs, hmem, hc, h43], by simp,
                by simp⟩
            · simp [h43] at h
              cases h
              exact ⟨deleteMode_conn _ _, [], by simp [cursorIndices, hs, hmem, hc], by simp,
                by simp⟩

theorem scan_ok_cursor (modeStr : GoString) (arguments : List GoString) (rest : List Nat) :
    ∀ st st1 : scanState, scan modeStr arguments rest st = .ok st1 →
      (∀ i, (GoMap.get st1.needMarshaling i).isSome
          ↔ (GoMap.get st.needMarshaling i).isSome
            ∨ i ∈ cursorIndices st.ch.conn st.plusMinus st.nextArgument rest)
      ∧ ∀ i, (GoMap.get st1.needMarshaling i).isSome →
          (GoMap.get st.needMarshaling i).isSome ∨ i < arguments.length := by
  induction rest with
  | nil =>
    intro st st1 h
    simp only [scan] at h
    cases h
    exact ⟨by simp [cursorIndices], fun i hi => Or.inl hi⟩
  | cons c rest ih =>
    intro st st1 h
    simp only [scan] at h
    cases hstep : step modeStr arguments st c with
    | error e => simp [hstep] at h
    | ok st2 =>
      simp only [hstep] at h
      obtain ⟨hconn, idx, hidx, hnm, hlt⟩ := step_ok_cursor modeStr arguments st st2 c rest hstep
      obtain ⟨ih1, ih2⟩ := ih st2 st1 h
      rw [hconn] at ih1
      refine ⟨fun i => ?_, fun i hi => ?_⟩
      · rw [ih1 i, hnm i, hidx, List.mem_append, or_assoc]
      · rcases ih2 i hi with h2 | h2
        · rcases (hnm i).mp h2 with h3 | h3
          · exact Or.inl h3
          · exact Or.inr (hlt i h3)
        · exact Or.inr h2

theorem resultCh_retagResult (modeStr : GoString)
    (x : Except (upstreamChannel × modeError) scanState) :
    resultCh (retagResult modeStr x) = resultCh x := by
  rcases x with ⟨ch, e⟩ | st <;> rfl

/-- The mode string passed along for the error messages steers nothing else. -/
theorem step_retag (ms1 ms2 : GoString) (arguments : List GoString) (st : scanState) (c : Nat) :
    step ms2 arguments st c = retagResult ms2 (step ms1 arguments st c) := by
  unfold step
  by_cases hs : c = 43 ∨ c = 45
  · rw [if_pos hs, if_pos hs]
    rfl
  · rw [if_neg hs, if_neg hs]
    by_cases hp : st.plusMinus ≠ 43 ∧ st.plusMinus ≠ 45
    · rw [if_pos hp, if_pos hp]
      rfl
    · rw [if_neg hp, if_neg hp]
      cases findMembership c st.ch.conn.availableMemberships with
      | some r =>
        by_cases ha : st.nextArgument ≥ arguments.length
        · simp only [dif_pos ha]
          rfl
        · simp only [dif_neg ha]
          rfl
      | none =>
        cases GoMap.get st.ch.conn.availableChannelModes c with
        | none => rfl
        | some mt =>
          cases mt <;> by_cases h43 : st.plusMinus = 43 <;> simp [h43, retagResult]

theorem scan_retag (ms1 ms2 : GoString) (arguments : List GoString) (l : List Nat) :
    ∀ st, scan ms2 arguments l st = retagResult ms2 (scan ms1 arguments l st) := by
  induction l with
  | nil => intro st; rfl
  | cons c rest ih =>
    intro st
    simp only [scan]
    rw [step_retag ms1 ms2]
    cases hstep : step ms1 arguments st c with
    | error e => rfl
    | ok st1 => exact ih st1

theorem scan_append (modeStr : GoString) (arguments : List GoString) (l1 l2 : List Nat) :
    ∀ st, scan modeStr arguments (l1 ++ l2) st =
      match scan modeStr arguments l1 st with
      | .ok st1 => scan modeStr arguments l2 st1
      | .error e => .error e := by
  induction l1 with
  | nil => intro st; rfl
  | cons c rest ih =>
    intro st
    simp only [List.cons_append, scan]
    cases hstep : step modeStr arguments st c with
    | error e => rfl
    | ok st1 => exact ih st1

theorem applyChannelModes_ch (ch : upstreamChannel) (modeStr : GoString)
    (arguments : List GoString) :
    (applyChannelModes ch modeStr arguments).ch
      = resultCh (scan modeStr arguments modeStr (scanState.init ch)) := by
  unfold applyChannelModes
  cases scan modeStr arguments modeStr (scanState.init ch) with
  | error e => rfl
  | ok st => rfl

/-- The channel after `applyChannelModes` on `l`, read off a scan of `l` that
formats its errors for any mode string. -/
theorem applyChannelModes_ch_scan (ch : upstreamChannel) (modeStr l : GoString)
    (arguments : List GoString) :
    (applyChannelModes ch l arguments).ch
      = resultCh (scan modeStr arguments l (scanState.init ch)) := by
  rw [applyChannelModes_ch, scan_retag modeStr l, resultCh_retagResult]

/-- A type-A or unrecognized letter that is no membership letter leaves the
channel as it is, whether the iteration succeeds or fails. -/
theorem step_frame (modeStr : GoString) (arguments : List GoString) (st : scanState) (c : Nat)
    (hs : ¬(c = 43 ∨ c = 45))
    (hmem : c ∉ st.ch.conn.availableMemberships.map membership.Mode)
    (hcls : GoMap.get st.ch.conn.availableChannelModes c = some modeTypeA
      ∨ GoMap.get st.ch.conn.availableChannelModes c = none) :
    resultCh (step modeStr arguments st c) = st.ch := by
  have hf : findMembership c st.ch.conn.availableMemberships = none := by
    cases hf : findMembership c st.ch.conn.availableMemberships with
    | none => rfl
    | some r => exact absurd (findMembership_some_mem _ _ _ hf) hmem
  unfold step
  rw [if_neg hs]
  by_cases hp : st.plusMinus ≠ 43 ∧ st.plusMinus ≠ 45
  · rw [if_pos hp]
    rfl
  · rw [if_neg hp]
    rcases hcls with h | h <;> simp [hf, h, resultCh]

theorem scan_conn (modeStr : GoString) (arguments : List GoString) (l : List Nat) :
    ∀ st st1, scan modeStr arguments l st = .ok st1 → st1.ch.conn = st.ch.conn := by
  induction l with
  | nil => intro st st1 h; simp only [scan] at h; cases h; rfl
  | cons c rest ih =>
    intro st st1 h
    simp only [scan] at h
    cases hstep : step modeStr arguments st c with
    | error e => simp [hstep] at h
    | ok st2 =>
      simp only [hstep] at h
      rw [ih st2 st1 h, (step_ok_cursor modeStr arguments st st2 c [] hstep).1]

/-- C4. Argument cursor and returned index set. Whenever `applyChannelModes`
succeeds, the returned `needMarshaling` holds exactly the indices of
`cursorIndices` (the cursor values at membership letters, the cursor starting
at 0 and advancing as the claim words it), every index it holds is below the
number of arguments, and a type-A or unrecognized letter `c` of the mode string
(no sign character, no membership letter) changes nothing on the channel:
applying the mode string up to and including `c` leaves the channel that
applying it up to `c` leaves. -/
theorem applyChannelModes_cursor (ch : upstreamChannel) (modeStr : GoString)
    (arguments : List GoString)
    (hok : (applyChannelModes ch modeStr arguments).err = none) :
    ∃ nm, (applyChannelModes ch modeStr arguments).needMarshaling = some nm
      ∧ (∀ i, (GoMap.get nm i).isSome ↔ i ∈ cursorIndices ch.conn 0 0 modeStr)
      ∧ (∀ i, (GoMap.get nm i).isSome → i < arguments.length)
      ∧ ∀ (pre : List Nat) (c : Nat) (post : List Nat), modeStr = pre ++ c :: post →
          ¬(c = 43 ∨ c = 45) →
          c ∉ ch.conn.availableMemberships.map membership.Mode →
          (GoMap.get ch.conn.availableChannelModes c = some modeTypeA
            ∨ GoMap.get ch.conn.availableChannelModes c = none) →
          (applyChannelModes ch (pre ++ [c]) arguments).ch
            = (applyChannelModes ch pre arguments).ch := by
  unfold applyChannelModes at hok
  cases hscan : scan modeStr arguments modeStr (scanState.init ch) with
  | error e =>
    rw [hscan] at hok
    simp at hok
  | ok st1 =>
    obtain ⟨h1, h2⟩ := scan_ok_cursor modeStr arguments modeStr _ st1 hscan
    refine ⟨st1.needMarshaling, by simp [applyChannelModes, hscan], fun i => ?_, fun i hi => ?_,
      fun pre c post _ hs hmem hcls => ?_⟩
    · have := h1 i
      simpa [scanState.init, GoMap.get] using this
    · have := h2 i hi
      simpa [scanState.init, GoMap.get] using this
    · rw [applyChannelModes_ch_scan ch modeStr (pre ++ [c]),
        applyChannelModes_ch_scan ch modeStr pre, scan_append]
      cases hpre : scan modeStr arguments pre (scanState.init ch) with
      | error e => rfl
      | ok st2 =>
        have hconn : st2.ch.conn = ch.conn := scan_conn modeStr arguments pre _ st2 hpre
        simp only [scan]
        have hfr := step_frame modeStr arguments st2 c hs (by rw [hconn]; exact hmem)
          (by rw [hconn]; exact hcls)
        cases hstep : step modeStr arguments st2 c with
        | error e =>
          rw [hstep] at hfr
          exact hfr
        | ok st3 =>
          rw [hstep] at hfr
          exact hfr

/-- C4, at the standard tables: `"+bo-l+l"` with the three arguments `"m"`,
`"alice"`, `"10"` succeeds; the ban mask takes index 0, the operator letter is
met at index 1, `-l` takes nothing and `+l` takes index 2, so that
`needMarshaling = {1}`. -/
theorem applyChannelModes_cursor_witness :
    (∃ nm, (applyChannelModes (aliceChannel stdConn) [43, 98, 111, 45, 108, 43, 108]
          [[109], [97, 108, 105, 99, 101], [49, 48]]).needMarshaling = some nm
      ∧ (∀ i, (GoMap.get nm i).isSome
          ↔ i ∈ cursorIndices stdConn 0 0 [43, 98, 111, 45, 108, 43, 108])
      ∧ (∀ i, (GoMap.get nm i).isSome → i < 3))
    ∧ (applyChannelModes (aliceChannel stdConn) [43, 98, 111, 45, 108, 43, 108]
          [[109], [97, 108, 105, 99, 101], [49, 48]]).needMarshaling = some [(1, ())]
    ∧ cursorIndices stdConn 0 0 [43, 98, 111, 45, 108, 43, 108] = [1] := by
  refine ⟨?_, by decide, by decide⟩
  obtain ⟨nm, h1, h2, h3, _⟩ :=
    applyChannelModes_cursor (aliceChannel stdConn) [43, 98, 111, 45, 108, 43, 108]
      [[109], [97, 108, 105, 99, 101], [49, 48]] (by decide)
  exact ⟨nm, h1, h2, h3⟩

/-- C5. A mode letter before any sign. For every mode string whose first byte
is neither `+` nor `-`, whatever follows it, and for every argument list and
channel (any classification table, rank list, mode table and members),
`applyChannelModes` returns the missing-plus/minus error with a nil
`needMarshaling` and leaves the channel as it was. -/
theorem applyChannelModes_missing_sign (ch : upstreamChannel) (c : Nat) (rest : List Nat)
    (arguments : List GoString) (hfirst : c ≠ 43 ∧ c ≠ 45) :
    applyChannelModes ch (c :: rest) arguments =
      { ch := ch, needMarshaling := none, err := some (.missingPlusMinus (c :: rest)) } := by
  obtain ⟨h1, h2⟩ := hfirst
  simp [applyChannelModes, scan, step, scanState.init, h1, h2]

/-- C5, at the standard tables: the mode string `"b"` fails and leaves the
channel as it was. -/
theorem applyChannelModes_missing_sign_witness :
    applyChannelModes (stdChannel (some [])) [98] [] =
      { ch := stdChannel (some []), needMarshaling := none,
        err := some (.missingPlusMinus [98]) } :=
  applyChannelModes_missing_sign (stdChannel (some [])) 98 [] [] (by decide)

/-- C6 as stated fails: `"+k"` with no argument on the standard tables is not
an error. It succeeds, with an empty `needMarshaling`, and stores the empty
string under `k`. -/
theorem applyChannelModes_setting_without_argument_counterexample :
    (applyChannelModes (stdChannel (some [])) [43, 107] []).err = none
    ∧ (applyChannelModes (stdChannel (some [])) [43, 107] []).needMarshaling = some []
    ∧ (applyChannelModes (stdChannel (some [])) [43, 107] []).ch.modes = some [(107, [])] := by
  refine ⟨by decide, by decide, by decide⟩

/-- Once a sign has been seen, an iteration of the loop fails exactly when its
byte is a membership letter (no sign character) met with the argument cursor at
or past the end of the argument list. -/
theorem step_error_iff (modeStr : GoString) (arguments : List GoString) (st : scanState)
    (c : Nat) (hsign : st.plusMinus = 43 ∨ st.plusMinus = 45) :
    (∃ e, step modeStr arguments st c = .error e) ↔
      (c ≠ 43 ∧ c ≠ 45)
      ∧ c ∈ st.ch.conn.availableMemberships.map membership.Mode
      ∧ st.nextArgument ≥ arguments.length := by
  have hp : ¬(st.plusMinus ≠ 43 ∧ st.plusMinus ≠ 45) := by
    rcases hsign with h | h <;> simp [h]
  unfold step
  by_cases hs : c = 43 ∨ c = 45
  · rw [if_pos hs]
    constructor
    · rintro ⟨e, he⟩
      exact absurd he (by simp)
    · rintro ⟨⟨h1, h2⟩, _⟩
      rcases hs with h | h
      · exact absurd h h1
      · exact absurd h h2
  · rw [if_neg hs, if_neg hp]
    have hs2 : c ≠ 43 ∧ c ≠ 45 := not_or.mp hs
    cases hf : findMembership c st.ch.conn.availableMemberships with
    | some r =>
      have hmem := findMembership_some_mem _ _ _ hf
      by_cases ha : st.nextArgument ≥ arguments.length
      · simp only [dif_pos ha]
        exact ⟨fun _ => ⟨hs2, hmem, ha⟩, fun _ => ⟨_, rfl⟩⟩
      · simp only [dif_neg ha]
        constructor
        · rintro ⟨e, he⟩
          exact absurd he (by simp)
        · rintro ⟨_, _, h3⟩
          exact absurd h3 ha
    | none =>
      have hmem := findMembership_none_not_mem _ _ hf
      constructor
      · rintro ⟨e, he⟩
        exfalso
        cases hc : GoMap.get st.ch.conn.availableChannelModes c with
        | none => simp [hc] at he
        | some mt =>
          cases mt <;> by_cases h43 : st.plusMinus = 43 <;> simp [hc, h43] at he
      · rintro ⟨_, h2, _⟩
        exact absurd h2 hmem

/-- C6, as amended. Setting (`+`) a type-B or type-C letter that is no
membership letter while the argument cursor is at or past the end of the
argument list is no failure: the iteration succeeds, the letter is stored with
the empty string (on a non-nil table) and the cursor advances by one. So `"+c"`
with an empty argument list succeeds and leaves `c` mapped to the empty string.
Once a sign has been seen, an iteration of the loop fails exactly on a
membership letter met with no argument remaining; in particular a type-A
letter with no argument remaining is no failure: `"+a"` with an empty argument
list succeeds for every type-A letter `a` and leaves the channel as it was. -/
theorem applyChannelModes_setting_without_argument (modeStr : GoString)
    (arguments : List GoString) (st : scanState) (c : Nat)
    (hletter : c ≠ 43 ∧ c ≠ 45)
    (hplus : st.plusMinus = 43)
    (hmem : ∀ r ∈ st.ch.conn.availableMemberships, r.Mode ≠ c)
    (hBC : GoMap.get st.ch.conn.availableChannelModes c = some modeTypeB
      ∨ GoMap.get st.ch.conn.availableChannelModes c = some modeTypeC)
    (hcur : st.nextArgument ≥ arguments.length) :
    step modeStr arguments st c =
        .ok { st with ch := setMode st.ch c [], nextArgument := st.nextArgument + 1 }
    ∧ applyChannelModes st.ch [43, c] [] =
        { ch := setMode st.ch c [], needMarshaling := some [], err := none }
    ∧ (∀ T, st.ch.modes = some T →
        (setMode st.ch c []).modes = some (GoMap.set T c [])
        ∧ GoMap.get (GoMap.set T c []) c = some [])
    ∧ (∀ (st1 : scanState) (c1 : Nat), (st1.plusMinus = 43 ∨ st1.plusMinus = 45) →
        ((∃ e, step modeStr arguments st1 c1 = .error e) ↔
          (c1 ≠ 43 ∧ c1 ≠ 45)
          ∧ c1 ∈ st1.ch.conn.availableMemberships.map membership.Mode
          ∧ st1.nextArgument ≥ arguments.length))
    ∧ ∀ (ch : upstreamChannel) (a : Nat), (a ≠ 43 ∧ a ≠ 45) →
        (∀ r ∈ ch.conn.availableMemberships, r.Mode ≠ a) →
        GoMap.get ch.conn.availableChannelModes a = some modeTypeA →
        applyChannelModes ch [43, a] [] =
          { ch := ch, needMarshaling := some [], err := none } := by
  have hm := findMembership_eq_none c _ hmem
  obtain ⟨h1, h2⟩ := hletter
  have hnlt : ¬ st.nextArgument < arguments.length := Nat.not_lt.mpr hcur
  refine ⟨?_, ?_, fun T hT => ⟨by simp [setMode, hT], GoMap.get_set_self T c []⟩,
    fun st1 c1 hsign => step_error_iff modeStr arguments st1 c1 hsign,
    fun ch a ha hma hA => ?_⟩
  · rcases hBC with h | h <;> simp [step, h1, h2, hplus, hm, h, hnlt]
  · rcases hBC with h | h <;>
      simp [applyChannelModes, scan, step, scanState.init, h1, h2, hm, h]
  · have hma1 := findMembership_eq_none a _ hma
    obtain ⟨ha1, ha2⟩ := ha
    simp [applyChannelModes, scan, step, scanState.init, ha1, ha2, hma1, hA]

/-- C6, as amended, at the standard tables: the channel key `k` set under `+`
with the cursor at 0 and no argument, and the ban letter `b` (type A) under `+`
with no argument, which succeeds and leaves the channel as it was. -/
theorem applyChannelModes_setting_without_argument_witness :
    step [43, 107] []
        { ch := stdChannel (some []), needMarshaling := [], nextArgument := 0, plusMinus := 43 }
        107 =
        .ok { ch := setMode (stdChannel (some [])) 107 [], needMarshaling := [],
              nextArgument := 0 + 1, plusMinus := 43 }
    ∧ applyChannelModes (stdChannel (some [])) [43, 107] [] =
        { ch := setMode (stdChannel (some [])) 107 [], needMarshaling := some [], err := none }
    ∧ applyChannelModes (stdChannel (some [])) [43, 98] [] =
        { ch := stdChannel (some []), needMarshaling := some [], err := none } :=
  ⟨(applyChannelModes_setting_without_argument [43, 107] []
      { ch := stdChannel (some []), needMarshaling := [], nextArgument := 0, plusMinus := 43 }
      107 (by decide) rfl (by decide) (Or.inl (by decide)) (by decide)).1,
   (applyChannelModes_setting_without_argument [43, 107] []
      { ch := stdChannel (some []), needMarshaling := [], nextArgument := 0, plusMinus := 43 }
      107 (by decide) rfl (by decide) (Or.inl (by decide)) (by decide)).2.1,
   (applyChannelModes_setting_without_argument [43, 107] []
      { ch := stdChannel (some []), needMarshaling := [], nextArgument := 0, plusMinus := 43 }
      107 (by decide) rfl (by decide) (Or.inl (by decide)) (by decide)).2.2.2.2
      (stdChannel (some [])) 98 (by decide) (by decide) (by decide)⟩

theorem retagResult_eq_ok (modeStr : GoString)
    (x : Except (upstreamChannel × modeError) scanState) (st : scanState)
    (h : x = .ok st) : retagResult modeStr x = .ok st := by
  subst h; rfl

/-- C7. Missing membership argument, no rollback. Let applying the prefix `pre`
succeed and leave the loop in state `st`, and let the next byte `c` be a
membership letter (no sign character) met with the cursor at or past the end
of the argument list. Then `applyChannelModes` on `pre ++ c :: post` returns an
error with a nil `needMarshaling`, whatever `post` is, and leaves exactly the
channel that applying `pre` leaves: the changes of `pre` are kept. When a sign
was seen the error is the missing-argument error for that sign and letter. -/
theorem applyChannelModes_missing_member_argument (ch : upstreamChannel)
    (pre : List Nat) (c : Nat) (post : List Nat) (arguments : List GoString) (st : scanState)
    (hpre : scan pre arguments pre (scanState.init ch) = .ok st)
    (hletter : c ≠ 43 ∧ c ≠ 45)
    (hmem : c ∈ ch.conn.availableMemberships.map membership.Mode)
    (hcur : st.nextArgument ≥ arguments.length) :
    (applyChannelModes ch (pre ++ c :: post) arguments).needMarshaling = none
    ∧ (∃ e, (applyChannelModes ch (pre ++ c :: post) arguments).err = some e)
    ∧ ((st.plusMinus = 43 ∨ st.plusMinus = 45) →
        (applyChannelModes ch (pre ++ c :: post) arguments).err
          = some (.missingArgument (pre ++ c :: post) st.plusMinus c))
    ∧ (applyChannelModes ch (pre ++ c :: post) arguments).ch = st.ch
    ∧ applyChannelModes ch pre arguments =
        { ch := st.ch, needMarshaling := some st.needMarshaling, err := none } := by
  obtain ⟨h1, h2⟩ := hletter
  have hconn : st.ch.conn = ch.conn := scan_conn pre arguments pre _ st hpre
  have hpre2 : scan (pre ++ c :: post) arguments pre (scanState.init ch) = .ok st := by
    rw [scan_retag pre (pre ++ c :: post)]
    exact retagResult_eq_ok _ _ _ hpre
  have hf : ∃ r, findMembership c st.ch.conn.availableMemberships = some r := by
    rw [hconn]
    cases hfm : findMembership c ch.conn.availableMemberships with
    | some r => exact ⟨r, rfl⟩
    | none => exact absurd hmem (findMembership_none_not_mem _ _ hfm)
  obtain ⟨r, hr⟩ := hf
  have hscan : scan (pre ++ c :: post) arguments (pre ++ c :: post) (scanState.init ch)
      = .error (st.ch, if st.plusMinus ≠ 43 ∧ st.plusMinus ≠ 45
          then .missingPlusMinus (pre ++ c :: post)
          else .missingArgument (pre ++ c :: post) st.plusMinus c) := by
    rw [scan_append, hpre2]
    simp only [scan, step, h1, h2, or_self, if_false]
    by_cases hp : st.plusMinus ≠ 43 ∧ st.plusMinus ≠ 45
    · simp [hp]
    · simp [hp, hr, hcur]
  refine ⟨?_, ?_, ?_, ?_, ?_⟩
  · simp [applyChannelModes, hscan]
  · simp [applyChannelModes, hscan]
  · intro hp
    have hp2 : ¬(st.plusMinus ≠ 43 ∧ st.plusMinus ≠ 45) := by
      rcases hp with h | h <;> simp [h]
    simp [applyChannelModes, hscan, hp2]
  · simp [applyChannelModes, hscan]
  · simp [applyChannelModes, hpre]

/-- C7, at the standard tables: `"+no"` with no argument fails on the
membership letter `o`, after `+n` was applied: the table is left as `{n:""}`. -/
theorem applyChannelModes_missing_member_argument_witness :
    ((applyChannelModes (stdChannel (some [])) ([43, 110] ++ 111 :: []) []).needMarshaling = none
      ∧ (applyChannelModes (stdChannel (some [])) ([43, 110] ++ 111 :: []) []).err
          = some (.missingArgument ([43, 110] ++ 111 :: []) 43 111)
      ∧ (applyChannelModes (stdChannel (some [])) ([43, 110] ++ 111 :: []) []).ch
          = setMode (stdChannel (some [])) 110 [])
    ∧ (applyChannelModes (stdChannel (some [])) [43, 110, 111] []).ch.modes
        = some [(110, [])] := by
  have h := applyChannelModes_missing_member_argument (stdChannel (some [])) [43, 110] 111 [] []
    { ch := setMode (stdChannel (some [])) 110 [], needMarshaling := [], nextArgument := 0,
      plusMinus := 43 }
    (by simp [scan, step, scanState.init, stdChannel, stdConn, stdChannelModes, stdMemberships,
          findMembership, GoMap.get])
    (by decide) (by decide) (by decide)
  exact ⟨⟨h.1, h.2.2.1 (Or.inl rfl), h.2.2.2.1⟩, by decide⟩

theorem forgetModes_setMode (ch : upstreamChannel) (c : Nat) (a : GoString) :
    setMode (forgetModes ch) c a = forgetModes (setMode ch c a) := by
  unfold setMode forgetModes; cases ch.modes <;> rfl

theorem forgetModes_deleteMode (ch : upstreamChannel) (c : Nat) :
    deleteMode (forgetModes ch) c = forgetModes (deleteMode ch c) := by
  unfold deleteMode forgetModes; cases ch.modes <;> rfl

/-- One iteration on the channel without its mode table is the iteration on the
channel, without the mode table. -/
theorem step_forget (modeStr : GoString) (arguments : List GoString) (st : scanState) (c : Nat) :
    step modeStr arguments { st with ch := forgetModes st.ch } c
      = forgetResult (step modeStr arguments st c) := by
  unfold step
  by_cases hs : c = 43 ∨ c = 45
  · rw [if_pos hs, if_pos hs]
    rfl
  · rw [if_neg hs, if_neg hs]
    by_cases hp : st.plusMinus ≠ 43 ∧ st.plusMinus ≠ 45
    · rw [if_pos hp, if_pos hp]
      rfl
    · rw [if_neg hp, if_neg hp]
      show (match findMembership c st.ch.conn.availableMemberships with
        | some membership => _
        | none => _) = _
      cases findMembership c st.ch.conn.availableMemberships with
      | some r =>
        by_cases ha : st.nextArgument ≥ arguments.length
        · simp only [dif_pos ha]
          rfl
        · simp only [dif_neg ha]
          rfl
      | none =>
        show (match GoMap.get st.ch.conn.availableChannelModes c with
          | none => _
          | some mt => _) = _
        cases GoMap.get st.ch.conn.availableChannelModes c with
        | none => rfl
        | some mt =>
          cases mt <;> by_cases h43 : st.plusMinus = 43 <;>
            simp [h43, forgetResult, forgetModes_setMode, forgetModes_deleteMode]

theorem scan_forget (modeStr : GoString) (arguments : List GoString) (l : List Nat) :
    ∀ st, scan modeStr arguments l { st with ch := forgetModes st.ch }
      = forgetResult (scan modeStr arguments l st) := by
  induction l with
  | nil => intro st; rfl
  | cons c rest ih =>
    intro st
    simp only [scan]
    rw [step_forget]
    cases hstep : step modeStr arguments st c with
    | error e => rfl
    | ok st1 => exact ih st1

/-- C8. Absent mode table. For every mode string and argument list, a call on a
channel whose mode table is nil leaves the table nil, and returns the same
`needMarshaling` and the same error, and leaves the same members and
connection, as the call on the channel that differs only in holding the
non-nil table `T`. -/
theorem applyChannelModes_nil_modes (conn : upstreamConn) (members : membershipsCasemapMap)
    (T : channelModes) (modeStr : GoString) (arguments : List GoString) :
    (applyChannelModes { conn := conn, modes := none, Members := members }
        modeStr arguments).ch.modes = none
    ∧ (applyChannelModes { conn := conn, modes := none, Members := members }
        modeStr arguments).needMarshaling
      = (applyChannelModes { conn := conn, modes := some T, Members := members }
        modeStr arguments).needMarshaling
    ∧ (applyChannelModes { conn := conn, modes := none, Members := members }
        modeStr arguments).err
      = (applyChannelModes { conn := conn, modes := some T, Members := members }
        modeStr arguments).err
    ∧ (applyChannelModes { conn := conn, modes := none, Members := members }
        modeStr arguments).ch.Members
      = (applyChannelModes { conn := conn, modes := some T, Members := members }
        modeStr arguments).ch.Members
    ∧ (applyChannelModes { conn := conn, modes := none, Members := members }
        modeStr arguments).ch.conn
      = (applyChannelModes { conn := conn, modes := some T, Members := members }
        modeStr arguments).ch.conn := by
  have h := scan_forget modeStr arguments modeStr
    (scanState.init { conn := conn, modes := some T, Members := members })
  have hinit : ({ scanState.init { conn := conn, modes := some T, Members := members } with
      ch := forgetModes
        (scanState.init { conn := conn, modes := some T, Members := members }).ch } : scanState)
      = scanState.init { conn := conn, modes := none, Members := members } := rfl
  rw [hinit] at h
  unfold applyChannelModes
  rw [h]
  cases scan modeStr arguments modeStr
      (scanState.init { conn := conn, modes := some T, Members := members }) with
  | error e => exact ⟨rfl, rfl, rfl, rfl, rfl⟩
  | ok st => exact ⟨rfl, rfl, rfl, rfl, rfl⟩

/-! ## Claims on the membership sets -/

namespace memberships

theorem Add_eq_loopResult (m : memberships) (avail : List membership) (r : membership) :
    Add m avail r = loopResult m r (addLoop m r avail 0) := by
  unfold Add loopResult
  cases addLoop m r avail 0 <;> rfl

theorem loopResult_addLoop (l : memberships) (r : membership) (avail : List membership) :
    ∀ i, i ≤ l.length →
      loopResult l r (addLoop l r avail i)
        = l.take i ++ walkResult (l.drop i) (addWalk r avail (l.drop i)) := by
  induction avail with
  | nil =>
    intro i _
    simp [addLoop, addWalk, loopResult, walkResult]
  | cons a rest ih =>
    intro i hi
    by_cases hlt : i < l.length
    · have hdrop : l.drop i = l[i] :: l.drop (i + 1) := List.drop_eq_getElem_cons hlt
      have htake : l.take (i + 1) = l.take i ++ [l[i]] := by
        rw [List.take_succ, List.getElem?_eq_getElem hlt]
        rfl
      by_cases hx : l[i] = a
      · by_cases ha : a = r
        · have e1 : addLoop l r (a :: rest) i = none := by simp [addLoop, hlt, hx, ha]
          have e2 : addWalk r (a :: rest) (l[i] :: l.drop (i + 1)) = none := by
            simp [addWalk, hx, ha]
          rw [e1, hdrop, e2, ← hdrop]
          simp [loopResult, walkResult]
        · have e1 : addLoop l r (a :: rest) i = addLoop l r rest (i + 1) := by
            simp [addLoop, hlt, hx, ha]
          have e2 : addWalk r (a :: rest) (l[i] :: l.drop (i + 1))
              = (addWalk r rest (l.drop (i + 1))).map (fun res => l[i] :: res) := by
            simp [addWalk, hx, ha]
          rw [e1, ih (i + 1) hlt, hdrop, e2]
          cases addWalk r rest (List.drop (i + 1) l) <;>
            (simp only [walkResult, Option.map]; rw [htake, List.append_assoc]; rfl)
      · by_cases ha : a = r
        · subst ha
          have e1 : addLoop l a (a :: rest) i = some i := by simp [addLoop, hlt, hx]
          have e2 : addWalk a (a :: rest) (l[i] :: l.drop (i + 1))
              = some (a :: l[i] :: l.drop (i + 1)) := by
            simp [addWalk, hx]
          rw [e1]
          simp only [loopResult]
          rw [hdrop, e2]
          rfl
        · have e1 : addLoop l r (a :: rest) i = addLoop l r rest i := by
            simp [addLoop, hlt, hx, ha]
          have e2 : addWalk r (a :: rest) (l[i] :: l.drop (i + 1))
              = addWalk r rest (l[i] :: l.drop (i + 1)) := by
            simp [addWalk, hx, ha]
          rw [e1, ih i hi, hdrop, e2]
    · have hge : l.length ≤ i := Nat.le_of_not_lt hlt
      simp [addLoop, hlt, List.drop_eq_nil_of_le hge, addWalk, loopResult, walkResult]

theorem Add_eq_walkResult (m : memberships) (avail : List membership) (r : membership) :
    Add m avail r = walkResult m (addWalk r avail m) := by
  rw [Add_eq_loopResult, loopResult_addLoop m r avail 0 (Nat.zero_le _)]
  simp

/-- A slice that is a subsequence of the available ranks stays one when a rank
of the list is added, and then holds the rank. -/
theorem addWalk_sublist (r : membership) (avail : List membership) :
    ∀ s res : List membership, s.Sublist avail → r ∈ avail →
      addWalk r avail s = some res → res.Sublist avail ∧ r ∈ res := by
  induction avail with
  | nil => intro s res _ hr _; simp at hr
  | cons a rest ih =>
    intro s res hs hr hw
    cases s with
    | nil =>
      simp only [addWalk, Option.some.injEq] at hw
      subst hw
      exact ⟨List.singleton_sublist.mpr hr, List.mem_singleton_self r⟩
    | cons x s =>
      by_cases hx : x = a
      · subst hx
        have hs1 : s.Sublist rest := List.cons_sublist_cons.mp hs
        by_cases ha : x = r
        · simp [addWalk, ha] at hw
        · simp only [addWalk, if_true, ha, if_false] at hw
          cases hrec : addWalk r rest s with
          | none => simp [hrec] at hw
          | some res1 =>
            simp only [hrec, Option.map, Option.some.injEq] at hw
            subst hw
            have hr1 : r ∈ rest := by
              rcases List.mem_cons.mp hr with h | h
              · exact absurd h.symm ha
              · exact h
            obtain ⟨h1, h2⟩ := ih s res1 hs1 hr1 hrec
            exact ⟨List.cons_sublist_cons.mpr h1, List.mem_cons_of_mem _ h2⟩
      · have hs1 : (x :: s).Sublist rest := by
          cases hs with
          | cons _ h => exact h
          | cons₂ _ h => exact absurd rfl hx
        by_cases ha : a = r
        · subst ha
          simp only [addWalk, hx, if_false, if_true, Option.some.injEq] at hw
          subst hw
          exact ⟨List.cons_sublist_cons.mpr hs1, List.mem_cons_self _ _⟩
        · simp only [addWalk, hx, if_false, ha] at hw
          have hr1 : r ∈ rest := by
            rcases List.mem_cons.mp hr with h | h
            · exact absurd h.symm ha
            · exact h
          obtain ⟨h1, h2⟩ := ih (x :: s) res hs1 hr1 hw
          exact ⟨List.Sublist.cons _ h1, h2⟩

/-- On a slice that is a subsequence of the duplicate-free available ranks, the
loop returns early when the rank is already held. -/
theorem addWalk_held (r : membership) (avail : List membership) :
    ∀ s : List membership, s.Sublist avail → avail.Nodup → r ∈ s →
      addWalk r avail s = none := by
  induction avail with
  | nil =>
    intro s hs _ hr
    rw [List.sublist_nil.mp hs] at hr
    simp at hr
  | cons a rest ih =>
    intro s hs hnd hr
    have hnd1 : rest.Nodup := (List.nodup_cons.mp hnd).2
    have hna : a ∉ rest := (List.nodup_cons.mp hnd).1
    cases s with
    | nil => simp at hr
    | cons x s =>
      by_cases hx : x = a
      · subst hx
        have hs1 : s.Sublist rest := List.cons_sublist_cons.mp hs
        by_cases ha : x = r
        · simp [addWalk, ha]
        · have hr1 : r ∈ s := by
            rcases List.mem_cons.mp hr with h | h
            · exact absurd h.symm ha
            · exact h
          simp [addWalk, ha, ih s hs1 hnd1 hr1]
      · have hs1 : (x :: s).Sublist rest := by
          cases hs with
          | cons _ h => exact h
          | cons₂ _ h => exact absurd rfl hx
        by_cases ha : a = r
        · subst ha
          exact absurd (hs1.subset hr) hna
        · simp [addWalk, hx, ha, ih (x :: s) hs1 hnd1 hr]

theorem removeLoop_sublist (r : membership) (l : List membership) :
    (removeLoop r l).Sublist l := by
  induction l with
  | nil => exact List.Sublist.refl _
  | cons x rest ih =>
    by_cases hx : x = r
    · simp [removeLoop, hx]
    · simp only [removeLoop, hx, if_false]
      exact List.cons_sublist_cons.mpr ih

theorem Add_sublist (m : memberships) (avail : List membership) (r : membership)
    (hsub : m.Sublist avail) (hr : r ∈ avail) :
    (Add m avail r).Sublist avail ∧ r ∈ Add m avail r := by
  rw [Add_eq_walkResult]
  cases hw : addWalk r avail m with
  | some res => exact addWalk_sublist r avail m res hsub hr hw
  | none =>
    refine ⟨hsub, ?_⟩
    simp only [walkResult]
    by_contra hnot
    -- the early return is taken only on a held rank
    have key : ∀ (avail s : List membership), addWalk r avail s = none → r ∈ s := by
      intro avail
      induction avail with
      | nil => intro s h; simp [addWalk] at h
      | cons a rest ih =>
        intro s h
        cases s with
        | nil => simp [addWalk] at h
        | cons x s =>
          by_cases hx : x = a
          · by_cases ha : a = r
            · rw [hx, ha]; exact List.mem_cons_self _ _
            · simp only [addWalk, hx, if_true, ha, if_false, Option.map_eq_none'] at h
              exact List.mem_cons_of_mem _ (ih s h)
          · by_cases ha : a = r
            · subst ha
              simp [addWalk, hx] at h
            · simp only [addWalk, hx, if_false, ha] at h
              exact ih (x :: s) h
    exact hnot (key avail m hw)

theorem Add_held (m : memberships) (avail : List membership) (r : membership)
    (hnodup : avail.Nodup) (hsub : m.Sublist avail) (hr : r ∈ m) : Add m avail r = m := by
  rw [Add_eq_walkResult, addWalk_held r avail m hsub hnodup hr]
  rfl

end memberships

/-- C9. The Membership Set invariant is preserved. Let the available ranks hold
no entry twice and let `m` be a subsequence of them. Then for a rank `r` of the
available ranks `m.Add(availableRanks, r)` is a subsequence of the available
ranks that holds `r`, and for any rank `r` so is `m.Remove(r)`; both hold no
rank twice. -/
theorem memberships_invariant (avail : List membership) (m : memberships) (r : membership)
    (hnodup : avail.Nodup) (hsub : m.Sublist avail) :
    (r ∈ avail →
        (memberships.Add m avail r).Sublist avail
        ∧ r ∈ memberships.Add m avail r
        ∧ (memberships.Add m avail r).Nodup)
    ∧ (memberships.Remove m r).Sublist avail
    ∧ (memberships.Remove m r).Nodup := by
  have hrem : (memberships.Remove m r).Sublist avail :=
    (memberships.removeLoop_sublist r m).trans hsub
  refine ⟨fun hr => ?_, hrem, hrem.nodup hnodup⟩
  obtain ⟨h1, h2⟩ := memberships.Add_sublist m avail r hsub hr
  exact ⟨h1, h2, h1.nodup hnodup⟩

/-- C9, at the standard ranks: the set `[(q,~), (v,+)]` with the operator rank
added is `[(q,~), (o,@), (v,+)]`, and with the voice rank removed is `[(q,~)]`. -/
theorem memberships_invariant_witness :
    ((memberships.Add [⟨113, 126⟩, ⟨118, 43⟩] stdMemberships ⟨111, 64⟩).Sublist stdMemberships
      ∧ (⟨111, 64⟩ : membership) ∈ memberships.Add [⟨113, 126⟩, ⟨118, 43⟩] stdMemberships ⟨111, 64⟩)
    ∧ (memberships.Remove [⟨113, 126⟩, ⟨118, 43⟩] ⟨118, 43⟩).Sublist stdMemberships
    ∧ memberships.Add [⟨113, 126⟩, ⟨118, 43⟩] stdMemberships ⟨111, 64⟩
        = [⟨113, 126⟩, ⟨111, 64⟩, ⟨118, 43⟩]
    ∧ memberships.Remove [⟨113, 126⟩, ⟨118, 43⟩] ⟨118, 43⟩ = [⟨113, 126⟩] := by
  have h := memberships_invariant stdMemberships [⟨113, 126⟩, ⟨118, 43⟩] ⟨111, 64⟩
    (by decide) (by decide)
  have h2 := memberships_invariant stdMemberships [⟨113, 126⟩, ⟨118, 43⟩] ⟨118, 43⟩
    (by decide) (by decide)
  exact ⟨⟨(h.1 (by decide)).1, (h.1 (by decide)).2.1⟩, h2.2.1, by decide, by decide⟩

/-- C10. `Add` of a held rank is a no-op. Let the available ranks hold no entry
twice and let `m` be a subsequence of them. If `m` holds `r`, then
`m.Add(availableRanks, r)` is `m` itself, so of the same length; and for any
rank `r` of the available ranks, adding `r` twice gives what adding it once
gives. -/
theorem memberships_Add_held (avail : List membership) (m : memberships) (r : membership)
    (hnodup : avail.Nodup) (hsub : m.Sublist avail) :
    (r ∈ m →
        memberships.Add m avail r = m
        ∧ (memberships.Add m avail r).length = m.length)
    ∧ (r ∈ avail →
        memberships.Add (memberships.Add m avail r) avail r = memberships.Add m avail r) := by
  refine ⟨fun hr => ?_, fun hr => ?_⟩
  · have h := memberships.Add_held m avail r hnodup hsub hr
    exact ⟨h, by rw [h]⟩
  · obtain ⟨h1, h2⟩ := memberships.Add_sublist m avail r hsub hr
    exact memberships.Add_held _ avail r hnodup h1 h2

/-- C10, at the standard ranks: the set `[(o,@), (v,+)]` is unchanged by adding
the operator rank, and adding the halfop rank twice gives `[(o,@), (h,%), (v,+)]`
as adding it once does. -/
theorem memberships_Add_held_witness :
    memberships.Add [⟨111, 64⟩, ⟨118, 43⟩] stdMemberships ⟨111, 64⟩ = [⟨111, 64⟩, ⟨118, 43⟩]
    ∧ memberships.Add (memberships.Add [⟨111, 64⟩, ⟨118, 43⟩] stdMemberships ⟨104, 37⟩)
          stdMemberships ⟨104, 37⟩
        = memberships.Add [⟨111, 64⟩, ⟨118, 43⟩] stdMemberships ⟨104, 37⟩
    ∧ memberships.Add [⟨111, 64⟩, ⟨118, 43⟩] stdMemberships ⟨104, 37⟩
        = [⟨111, 64⟩, ⟨104, 37⟩, ⟨118, 43⟩] :=
  ⟨((memberships_Add_held stdMemberships [⟨111, 64⟩, ⟨118, 43⟩] ⟨111, 64⟩
      (by decide) (by decide)).1 (by decide)).1,
   (memberships_Add_held stdMemberships [⟨111, 64⟩, ⟨118, 43⟩] ⟨104, 37⟩
      (by decide) (by decide)).2 (by decide),
   by decide⟩

/-! ## Claims on rendering, parsing and casemapping -/

theorem memberships.prefixesLoop_eq_map (m : List membership) :
    memberships.prefixesLoop m = m.map membership.Prefix := by
  induction m with
  | nil => rfl
  | cons x rest ih => simp [memberships.prefixesLoop, ih]

/-- What `memberships.Format` computes. Without multi-prefix the result is the
empty string for the empty sequence, and otherwise the conversion `string(p)`
of the prefix symbol `p` of the first element, which is the one byte `p` only
when `p` is an ASCII byte. With multi-prefix the result is the string of the
prefix symbols of all elements in sequence order, of length `len(m)`. -/
theorem memberships_Format_spec (m : memberships) :
    (m = [] → memberships.Format m false = [])
    ∧ (∀ first rest, m = first :: rest →
        memberships.Format m false = stringOfByte first.Prefix
        ∧ (first.Prefix < 128 → memberships.Format m false = [first.Prefix]))
    ∧ memberships.Format m true = m.map membership.Prefix
    ∧ (memberships.Format m true).length = m.length := by
  refine ⟨?_, ?_, ?_, ?_⟩
  · intro h
    subst h
    rfl
  · intro first rest h
    subst h
    refine ⟨rfl, fun hp => ?_⟩
    simp [memberships.Format, stringOfByte, hp]
  · simp [memberships.Format, memberships.prefixesLoop_eq_map]
  · simp [memberships.Format, memberships.prefixesLoop_eq_map]

/-- At the standard ranks: starting empty, `Add(ranks, operator)` then
`Add(ranks, voice)` gives a set whose `Format` is `"@+"` with multi-prefix and
`"@"` without. -/
theorem memberships_Format_spec_witness :
    memberships.Format
        (memberships.Add (memberships.Add [] stdMemberships ⟨111, 64⟩) stdMemberships ⟨118, 43⟩)
        true = [64, 43]
    ∧ memberships.Format
        (memberships.Add (memberships.Add [] stdMemberships ⟨111, 64⟩) stdMemberships ⟨118, 43⟩)
        false = [64]
    ∧ memberships.Format [⟨111, 64⟩, ⟨118, 43⟩] true
        = [⟨111, 64⟩, ⟨118, 43⟩].map membership.Prefix :=
  ⟨by decide, by decide, (memberships_Format_spec [⟨111, 64⟩, ⟨118, 43⟩]).2.2.1⟩

/-- C11. `memberships.Format` on a prefix symbol that is no ASCII byte. For the
set holding the one rank `(o, 200)`, the call without multi-prefix returns the
two bytes 195, 136, the UTF-8 encoding that `string(m[0].Prefix)` produces for
the code point 200, and not the string of the one byte 200 that holds the
prefix symbol; with multi-prefix the same set is rendered as that one byte.
For an ASCII prefix symbol the two agree, as for `(o, @)`. -/
theorem memberships_Format_nonascii_prefix :
    memberships.Format [⟨111, 200⟩] false = [195, 136]
    ∧ (memberships.Format [⟨111, 200⟩] false).length = 2
    ∧ memberships.Format [⟨111, 200⟩] true = [200]
    ∧ memberships.Format [⟨111, 64⟩] false = [64]
    ∧ memberships.Format [⟨111, 64⟩] true = [64] := by
  refine ⟨by decide, by decide, by decide, by decide, by decide⟩

/-- C15. Casemapping idempotence: each of `casemapASCII`, `casemapRFC1459` and
`casemapRFC1459Strict` applied twice gives what it gives applied once, for
every byte string. -/
theorem casemap_idempotent (n : GoString) :
    casemapASCII (casemapASCII n) = casemapASCII n
    ∧ casemapRFC1459 (casemapRFC1459 n) = casemapRFC1459 n
    ∧ casemapRFC1459Strict (casemapRFC1459Strict n) = casemapRFC1459Strict n := by
  refine ⟨?_, ?_, ?_⟩
  · simp only [casemapASCII, List.map_map]
    apply List.map_congr_left
    intro r _
    simp only [Function.comp]
    by_cases hu : 65 ≤ r ∧ r ≤ 90
    · have h1 : ¬(65 ≤ r + 97 - 65 ∧ r + 97 - 65 ≤ 90) := by omega
      simp only [hu, and_self, if_true, h1, if_false]
    · simp only [hu, if_false]
  · simp only [casemapRFC1459, List.map_map]
    apply List.map_congr_left
    intro r _
    simp only [Function.comp]
    by_cases hu : 65 ≤ r ∧ r ≤ 90
    · have h1 : ¬(65 ≤ r + 97 - 65 ∧ r + 97 - 65 ≤ 90) := by omega
      have h2 : r + 97 - 65 ≠ 123 := by omega
      have h3 : r + 97 - 65 ≠ 125 := by omega
      have h4 : r + 97 - 65 ≠ 92 := by omega
      have h5 : r + 97 - 65 ≠ 126 := by omega
      simp only [hu, and_self, if_true, h1, h2, h3, h4, h5, if_false]
    · simp only [hu, if_false]
      by_cases c1 : r = 123
      · subst c1; decide
      · by_cases c2 : r = 125
        · subst c2; decide
        · by_cases c3 : r = 92
          · subst c3; decide
          · by_cases c4 : r = 126
            · subst c4; decide
            · simp only [c1, c2, c3, c4, hu, if_false]
  · simp only [casemapRFC1459Strict, List.map_map]
    apply List.map_congr_left
    intro r _
    simp only [Function.comp]
    by_cases hu : 65 ≤ r ∧ r ≤ 90
    · have h1 : ¬(65 ≤ r + 97 - 65 ∧ r + 97 - 65 ≤ 90) := by omega
      have h2 : r + 97 - 65 ≠ 123 := by omega
      have h3 : r + 97 - 65 ≠ 125 := by omega
      have h4 : r + 97 - 65 ≠ 92 := by omega
      simp only [hu, and_self, if_true, h1, h2, h3, h4, if_false]
    · simp only [hu, if_false]
      by_cases c1 : r = 123
      · subst c1; decide
      · by_cases c2 : r = 125
        · subst c2; decide
        · by_cases c3 : r = 92
          · subst c3; decide
          · simp only [c1, c2, c3, hu, if_false]

/-- C15, on `"AZ{}\\~[a"`: a second pass of each casemapping changes nothing. -/
theorem casemap_idempotent_witness :
    casemapASCII (casemapASCII [65, 90, 123, 125, 92, 126, 91, 97])
        = casemapASCII [65, 90, 123, 125, 92, 126, 91, 97]
    ∧ casemapRFC1459 [65, 90, 123, 125, 92, 126, 91, 97] = [97, 122, 91, 93, 124, 94, 91, 97]
    ∧ casemapRFC1459Strict [65, 90, 123, 125, 92, 126, 91, 97]
        = [97, 122, 91, 93, 124, 126, 91, 97] :=
  ⟨(casemap_idempotent [65, 90, 123, 125, 92, 126, 91, 97]).1, by decide, by decide⟩


/-- On one byte, `casemapRFC1459` is `casemapRFC1459Strict` followed by the
replacement of `~` by `^`. -/
theorem rfc1459_byte (r : Nat) :
    (if 65 ≤ r ∧ r ≤ 90 then r + 97 - 65 else if r = 123 then 91 else if r = 125 then 93
      else if r = 92 then 124 else if r = 126 then 94 else r)
    = (fun b => if b = 126 then 94 else b)
        (if 65 ≤ r ∧ r ≤ 90 then r + 97 - 65 else if r = 123 then 91 else if r = 125 then 93
          else if r = 92 then 124 else r) := by
  by_cases hu : 65 ≤ r ∧ r ≤ 90
  · have h1 : r + 97 - 65 ≠ 126 := by omega
    simp only [hu, and_self, if_true, h1, if_false]
  · simp only [hu, if_false]
    by_cases c1 : r = 123
    · subst c1; decide
    · by_cases c2 : r = 125
      · subst c2; decide
      · by_cases c3 : r = 92
        · subst c3; decide
        · by_cases c4 : r = 126
          · subst c4; decide
          · simp only [c1, c2, c3, c4, if_false]

/-- C16. `casemapRFC1459Strict` against `casemapRFC1459`. Both keep the length
of `n`. At a position where `n` holds a byte other than `~` they agree; at a
position where `n` holds `~` the first yields `^` and the second `~`. So
`casemapRFC1459(n)` is `casemapRFC1459Strict(n)` with every `~` replaced by
`^`, and the two are equal when `n` holds no `~`. -/
theorem casemapRFC1459Strict_vs_RFC1459 (n : GoString) :
    (casemapRFC1459 n).length = n.length
    ∧ (casemapRFC1459Strict n).length = n.length
    ∧ (∀ (i r : Nat), n[i]? = some r →
        (r ≠ 126 → (casemapRFC1459 n)[i]? = (casemapRFC1459Strict n)[i]?)
        ∧ (r = 126 → (casemapRFC1459 n)[i]? = some 94
            ∧ (casemapRFC1459Strict n)[i]? = some 126))
    ∧ casemapRFC1459 n = (casemapRFC1459Strict n).map (fun b => if b = 126 then 94 else b)
    ∧ (126 ∉ n → casemapRFC1459 n = casemapRFC1459Strict n) := by
  refine ⟨by simp [casemapRFC1459], by simp [casemapRFC1459Strict], ?_, ?_, ?_⟩
  · intro i r hr
    refine ⟨fun hne => ?_, fun he => ?_⟩
    · simp only [casemapRFC1459, casemapRFC1459Strict, List.getElem?_map, hr, Option.map_some']
      simp only [hne, if_false]
    · subst he
      simp only [casemapRFC1459, casemapRFC1459Strict, List.getElem?_map, hr, Option.map_some']
      exact ⟨by decide, by decide⟩
  · simp only [casemapRFC1459, casemapRFC1459Strict, List.map_map]
    apply List.map_congr_left
    intro r _
    exact rfc1459_byte r
  · intro hno
    simp only [casemapRFC1459, casemapRFC1459Strict]
    apply List.map_congr_left
    intro r hr
    have hne : r ≠ 126 := fun h => hno (h ▸ hr)
    simp only [hne, if_false]

/-- C16, on `"a~B^"`: the two casemappings give `"a^b^"` and `"a~b^"`, which
differ at index 1 only. -/
theorem casemapRFC1459Strict_vs_RFC1459_witness :
    casemapRFC1459 [97, 126, 66, 94] = [97, 94, 98, 94]
    ∧ casemapRFC1459Strict [97, 126, 66, 94] = [97, 126, 98, 94]
    ∧ casemapRFC1459 [97, 126, 66, 94]
        = (casemapRFC1459Strict [97, 126, 66, 94]).map (fun b => if b = 126 then 94 else b) :=
  ⟨by decide, by decide, (casemapRFC1459Strict_vs_RFC1459 [97, 126, 66, 94]).2.2.2.1⟩

/-- The loop of `partialCasemap` succeeds when every index it reaches is in
range, and then keeps the ASCII letters and takes every other byte from
`nameFullyCM`. -/
theorem partialCasemapLoop_spec (full : GoString) (rest : List Nat) :
    ∀ i, i + rest.length ≤ full.length →
      ∃ s, partialCasemapLoop full i rest = some s ∧ s.length = rest.length
        ∧ ∀ (j r : Nat), rest[j]? = some r →
            s[j]? = if (65 ≤ r ∧ r ≤ 90) ∨ (97 ≤ r ∧ r ≤ 122) then some r else full[i + j]? := by
  induction rest with
  | nil =>
    intro i _
    exact ⟨[], rfl, rfl, by simp⟩
  | cons x rest ih =>
    intro i hi
    simp only [List.length_cons] at hi
    obtain ⟨s, hs, hl, hget⟩ := ih (i + 1) (by omega)
    have hlt : i < full.length := by omega
    by_cases hx : ¬(65 ≤ x ∧ x ≤ 90) ∧ ¬(97 ≤ x ∧ x ≤ 122)
    · refine ⟨full[i] :: s, ?_, by simp [hl], ?_⟩
      · simp only [partialCasemapLoop, hx, not_false_eq_true, and_self, if_true,
          List.getElem?_eq_getElem hlt, hs, Option.map_some']
      · intro j r hj
        cases j with
        | zero =>
          simp only [List.getElem?_cons_zero, Option.some.injEq] at hj
          subst hj
          have hx2 : ¬((65 ≤ x ∧ x ≤ 90) ∨ (97 ≤ x ∧ x ≤ 122)) := by
            rw [not_or]; exact hx
          simp only [List.getElem?_cons_zero, hx2, if_false, Nat.add_zero,
            List.getElem?_eq_getElem hlt]
        | succ j =>
          simp only [List.getElem?_cons_succ] at hj ⊢
          rw [hget j r hj]
          have : i + 1 + j = i + (j + 1) := by omega
          rw [this]
    · refine ⟨x :: s, ?_, by simp [hl], ?_⟩
      · simp only [partialCasemapLoop, hx, if_false, hs, Option.map_some']
      · intro j r hj
        cases j with
        | zero =>
          simp only [List.getElem?_cons_zero, Option.some.injEq] at hj
          subst hj
          have hx2 : (65 ≤ x ∧ x ≤ 90) ∨ (97 ≤ x ∧ x ≤ 122) := by
            by_contra hc
            rw [not_or] at hc
            exact hx hc
          simp only [List.getElem?_cons_zero, hx2, if_true]
        | succ j =>
          simp only [List.getElem?_cons_succ] at hj ⊢
          rw [hget j r hj]
          have : i + 1 + j = i + (j + 1) := by omega
          rw [this]


/-- What `partialCasemap` returns for a casemapping that acts byte by byte
through `f`, when `f` and `g` agree off the ASCII letters and `g` keeps the
ASCII letters. -/
theorem partialCasemap_bytewise (f g : Nat → Nat) (name : GoString)
    (hletter : ∀ r, (65 ≤ r ∧ r ≤ 90) ∨ (97 ≤ r ∧ r ≤ 122) → g r = r)
    (hother : ∀ r, ¬((65 ≤ r ∧ r ≤ 90) ∨ (97 ≤ r ∧ r ≤ 122)) → g r = f r) :
    partialCasemapLoop (name.map f) 0 name = some (name.map g) := by
  obtain ⟨s, hs, hl, hget⟩ := partialCasemapLoop_spec (name.map f) name 0 (by simp)
  rw [hs]
  congr 1
  apply List.ext_getElem?
  intro i
  cases hn : name[i]? with
  | none =>
    have h1 : name.length ≤ i := List.getElem?_eq_none_iff.mp hn
    rw [List.getElem?_eq_none (by omega), List.getElem?_eq_none (by simp; omega)]
  | some r =>
    rw [hget i r hn]
    simp only [List.getElem?_map, hn, Option.map_some', Nat.zero_add]
    by_cases hr : (65 ≤ r ∧ r ≤ 90) ∨ (97 ≤ r ∧ r ≤ 122)
    · rw [if_pos hr, hletter r hr]
    · rw [if_neg hr, hother r hr]

/-- C17. `partialCasemap`. For a casemapping `higher` whose result on `name`
has the length of `name` (as each of `casemapNone`, `casemapASCII`,
`casemapRFC1459` and `casemapRFC1459Strict` has), every index is in range and
the result has the length of `name`; its byte at position `i` is `name[i]` when
`name[i]` is an ASCII letter and `higher(name)[i]` otherwise. With
`casemapRFC1459` the ASCII letters keep their case while `{`, `}`, `\\` and `~`
are folded, and with `casemapASCII` the result is `name`. -/
theorem partialCasemap_spec (higher : casemapping) (name : GoString)
    (hlen : (higher name).length = name.length) :
    (∃ s, partialCasemap higher name = some s ∧ s.length = name.length
      ∧ ∀ (i r : Nat), name[i]? = some r →
          s[i]? = if (65 ≤ r ∧ r ≤ 90) ∨ (97 ≤ r ∧ r ≤ 122) then some r
                  else (higher name)[i]?)
    ∧ ((casemapNone name).length = name.length
      ∧ (casemapASCII name).length = name.length
      ∧ (casemapRFC1459 name).length = name.length
      ∧ (casemapRFC1459Strict name).length = name.length)
    ∧ partialCasemap casemapRFC1459 name
        = some (name.map fun r =>
            if r = 123 then 91 else if r = 125 then 93 else if r = 92 then 124
            else if r = 126 then 94 else r)
    ∧ partialCasemap casemapASCII name = some name := by
  refine ⟨?_, ⟨rfl, by simp [casemapASCII], by simp [casemapRFC1459],
    by simp [casemapRFC1459Strict]⟩, ?_, ?_⟩
  · obtain ⟨s, hs, hl, hget⟩ := partialCasemapLoop_spec (higher name) name 0 (by omega)
    refine ⟨s, hs, hl, fun i r hr => ?_⟩
    rw [hget i r hr, Nat.zero_add]
  · unfold partialCasemap casemapRFC1459
    apply partialCasemap_bytewise
    · intro r hr
      have h1 : r ≠ 123 := by omega
      have h2 : r ≠ 125 := by omega
      have h3 : r ≠ 92 := by omega
      have h4 : r ≠ 126 := by omega
      simp only [h1, h2, h3, h4, if_false]
    · intro r hr
      have h1 : ¬(65 ≤ r ∧ r ≤ 90) := fun h => hr (Or.inl h)
      simp only [h1, if_false]
  · unfold partialCasemap casemapASCII
    have h := partialCasemap_bytewise (fun r => if 65 ≤ r ∧ r ≤ 90 then r + 97 - 65 else r)
      (fun r => r) name (fun _ _ => rfl) (fun r hr => by
        have h1 : ¬(65 ≤ r ∧ r ≤ 90) := fun h => hr (Or.inl h)
        simp only [h1, if_false])
    simpa using h

/-- C17, on `"Ab{~"` with `casemapRFC1459`: the letters keep their case and the
two other bytes are folded, giving `"Ab[^"`. -/
theorem partialCasemap_spec_witness :
    (∃ s, partialCasemap casemapRFC1459 [65, 98, 123, 126] = some s ∧ s.length = 4)
    ∧ partialCasemap casemapRFC1459 [65, 98, 123, 126] = some [65, 98, 91, 94]
    ∧ partialCasemap casemapASCII [65, 98, 123, 126] = some [65, 98, 123, 126] := by
  obtain ⟨⟨s, h1, h2, _⟩, _, _, h4⟩ :=
    partialCasemap_spec casemapRFC1459 [65, 98, 123, 126] (by decide)
  exact ⟨⟨s, h1, h2⟩, by decide, h4⟩

/-- C19. `parseChannelStatus`. On a one-character string it succeeds exactly on
`=`, `@` and `*`, the public, secret and private status, and returns the
character as the status; on any other single character it returns the
unknown-status error; on a string of more than one character it returns the
more-than-one-character error. -/
theorem parseChannelStatus_spec (c : Nat) (s : GoString) (hs : 1 < s.length) :
    (parseChannelStatus [c] =
        if c = 61 ∨ c = 64 ∨ c = 42 then some (c, none)
        else some (0, some (.unknownStatus [c])))
    ∧ (∀ cs, parseChannelStatus [c] = some (cs, none) ↔
        (c = 61 ∨ c = 64 ∨ c = 42) ∧ cs = c)
    ∧ parseChannelStatus s = some (0, some (.moreThanOneCharacter s))
    ∧ channelPublic = 61 ∧ channelSecret = 64 ∧ channelPrivate = 42 := by
  have h1 : parseChannelStatus [c] =
      if c = 61 ∨ c = 64 ∨ c = 42 then some (c, none)
      else some (0, some (.unknownStatus [c])) := by
    simp [parseChannelStatus, channelPublic, channelSecret, channelPrivate]
  refine ⟨h1, fun cs => ?_, ?_, rfl, rfl, rfl⟩
  · rw [h1]
    by_cases hc : c = 61 ∨ c = 64 ∨ c = 42
    · simp only [hc, if_true, Option.some.injEq, Prod.mk.injEq, and_true, true_and]
      exact eq_comm
    · simp [hc]
  · simp [parseChannelStatus, hs]

/-- C19, on the strings of the specification: `"="`, `"@"` and `"*"` parse to
themselves, `"?"` is an unknown status and `"=x"` has more than one character. -/
theorem parseChannelStatus_spec_witness :
    parseChannelStatus [61] = some (61, none)
    ∧ parseChannelStatus [64] = some (64, none)
    ∧ parseChannelStatus [42] = some (42, none)
    ∧ parseChannelStatus [63] = some (0, some (.unknownStatus [63]))
    ∧ parseChannelStatus [61, 120] = some (0, some (.moreThanOneCharacter [61, 120])) :=
  ⟨by decide, by decide, by decide,
    (parseChannelStatus_spec 63 [61, 120] (by decide)).1,
    (parseChannelStatus_spec 63 [61, 120] (by decide)).2.2.1⟩


/-! ## Claims on the case-folding map -/

namespace GoMap

variable {κ ν : Type} [DecidableEq κ]

theorem get_eq_none_iff (m : GoMap κ ν) (k : κ) : get m k = none ↔ k ∉ m.map Prod.fst := by
  induction m with
  | nil => simp [get]
  | cons e rest ih =>
    obtain ⟨k1, v1⟩ := e
    by_cases h : k1 = k
    · simp [get, h]
    · simp only [get, h, if_false, ih, List.map_cons, List.mem_cons, not_or]
      exact ⟨fun hr => ⟨fun e => h e.symm, hr⟩, fun hr => hr.2⟩

theorem length_set_of_none (m : GoMap κ ν) (k : κ) (v : ν) (h : get m k = none) :
    (set m k v).length = m.length + 1 := by
  induction m with
  | nil => rfl
  | cons e rest ih =>
    obtain ⟨k1, v1⟩ := e
    by_cases hk : k1 = k
    · simp [get, hk] at h
    · simp only [get, hk, if_false] at h
      simp [set, hk, ih h]

theorem length_set_of_some (m : GoMap κ ν) (k : κ) (v w : ν) (h : get m k = some w) :
    (set m k v).length = m.length := by
  induction m with
  | nil => simp [get] at h
  | cons e rest ih =>
    obtain ⟨k1, v1⟩ := e
    by_cases hk : k1 = k
    · simp [set, hk]
    · simp only [get, hk, if_false] at h
      simp [set, hk, ih h]

theorem length_set_le (m : GoMap κ ν) (k : κ) (v : ν) : (set m k v).length ≤ m.length + 1 := by
  cases h : get m k with
  | none => rw [length_set_of_none m k v h]
  | some w => rw [length_set_of_some m k v w h]; omega

theorem mem_set (m : GoMap κ ν) (k : κ) (v : ν) (x : κ × ν) (hx : x ∈ set m k v) :
    x ∈ m ∨ x = (k, v) := by
  induction m with
  | nil =>
    simp only [set, List.mem_singleton] at hx
    exact Or.inr hx
  | cons e rest ih =>
    obtain ⟨k1, v1⟩ := e
    by_cases hk : k1 = k
    · simp only [set, hk, if_true, List.mem_cons] at hx
      rcases hx with h | h
      · exact Or.inr h
      · exact Or.inl (List.mem_cons_of_mem _ h)
    · simp only [set, hk, if_false, List.mem_cons] at hx
      rcases hx with h | h
      · exact Or.inl (h ▸ List.mem_cons_self _ _)
      · rcases ih h with h2 | h2
        · exact Or.inl (List.mem_cons_of_mem _ h2)
        · exact Or.inr h2

theorem keys_set (m : GoMap κ ν) (k : κ) (v : ν) :
    (set m k v).map Prod.fst =
      if k ∈ m.map Prod.fst then m.map Prod.fst else m.map Prod.fst ++ [k] := by
  induction m with
  | nil => simp [set]
  | cons e rest ih =>
    obtain ⟨k1, v1⟩ := e
    by_cases hk : k1 = k
    · simp [set, hk]
    · have hk2 : ¬ k = k1 := fun e => hk e.symm
      simp only [set, hk, if_false, List.map_cons, ih, List.mem_cons, hk2, false_or]
      split_ifs <;> simp

theorem nodup_keys_set (m : GoMap κ ν) (k : κ) (v : ν) (h : (m.map Prod.fst).Nodup) :
    ((set m k v).map Prod.fst).Nodup := by
  rw [keys_set]
  split_ifs with hk
  · exact h
  · exact List.Nodup.append h (List.nodup_singleton k) (by simpa using hk)

theorem nodup_keys_delete (m : GoMap κ ν) (k : κ) (h : (m.map Prod.fst).Nodup) :
    ((delete m k).map Prod.fst).Nodup := by
  have hsub : ∀ m : GoMap κ ν, ((delete m k).map Prod.fst).Sublist (m.map Prod.fst) := by
    intro m
    induction m with
    | nil => exact List.Sublist.refl _
    | cons e rest ih =>
      obtain ⟨k1, v1⟩ := e
      by_cases hk : k1 = k
      · simp only [delete, hk, if_true, List.map_cons]
        exact List.Sublist.cons _ ih
      · simp only [delete, hk, if_false, List.map_cons]
        exact List.cons_sublist_cons.mpr ih
  exact (hsub m).nodup h

theorem mem_delete (m : GoMap κ ν) (k : κ) (x : κ × ν) (hx : x ∈ delete m k) : x ∈ m := by
  induction m with
  | nil => simp [delete] at hx
  | cons e rest ih =>
    obtain ⟨k1, v1⟩ := e
    by_cases hk : k1 = k
    · simp only [delete, hk, if_true] at hx
      exact List.mem_cons_of_mem _ (ih hx)
    · simp only [delete, hk, if_false, List.mem_cons] at hx
      rcases hx with h | h
      · exact h ▸ List.mem_cons_self _ _
      · exact List.mem_cons_of_mem _ (ih h)

theorem get_some_mem (m : GoMap κ ν) (k : κ) (v : ν) (h : get m k = some v) : (k, v) ∈ m := by
  induction m with
  | nil => simp [get] at h
  | cons e rest ih =>
    obtain ⟨k1, v1⟩ := e
    by_cases hk : k1 = k
    · simp only [get, hk, if_true, Option.some.injEq] at h
      rw [hk, h]
      exact List.mem_cons_self _ _
    · simp only [get, hk, if_false] at h
      exact List.mem_cons_of_mem _ (ih h)

end GoMap


namespace casemapMap

variable {ν : Type}

/-- The original key that `SetValue(name, _)` leaves under the canonical form of
`name`: the key stored before when there is one, and `name` otherwise. -/
theorem SetValue_get (cm : casemapMap ν) (name : GoString) (v : ν) (key : GoString) :
    GoMap.get (cm.SetValue name v).innerMap key =
      if key = cm.casemap name then
        some { originalKey :=
                 match GoMap.get cm.innerMap (cm.casemap name) with
                 | none => name
                 | some entry => entry.originalKey,
               value := v }
      else GoMap.get cm.innerMap key := by
  unfold SetValue
  by_cases hk : key = cm.casemap name
  · subst hk
    cases hg : GoMap.get cm.innerMap (cm.casemap name) <;>
      simp [hg, GoMap.get_set_self]
  · cases hg : GoMap.get cm.innerMap (cm.casemap name) <;>
      simp [hg, hk, GoMap.get_set_other _ _ _ _ hk]

theorem SetValue_casemap (cm : casemapMap ν) (name : GoString) (v : ν) :
    (cm.SetValue name v).casemap = cm.casemap := by
  unfold SetValue
  cases hg : GoMap.get cm.innerMap (cm.casemap name) <;> simp [hg]

theorem SetValue_Len (cm : casemapMap ν) (name : GoString) (v : ν) :
    (cm.SetValue name v).Len = if cm.Has name = true then cm.Len else cm.Len + 1 := by
  unfold SetValue Has Len
  cases hg : GoMap.get cm.innerMap (cm.casemap name) with
  | none => simp [hg, GoMap.length_set_of_none _ _ _ hg]
  | some e => simp [hg, GoMap.length_set_of_some _ _ _ e hg]

end casemapMap

/-- C12. `SetValue` postcondition. After `SetValue(name, v)`, for every `name1`
of the canonical form of `name`: `Has(name1)` is true and the stored value is
`v`; `OriginalKey(name1)` is found, and is `name` when no entry existed for the
canonical form before the call, and otherwise the original key stored before
the call; `Len` grows by one when no entry existed and stays otherwise; every
other canonical form reads as before, and the casemapping is kept. -/
theorem casemapMap_SetValue {ν : Type} (cm : casemapMap ν) (name : GoString) (v : ν)
    (name1 : GoString) (hfold : cm.casemap name1 = cm.casemap name) :
    (cm.SetValue name v).Has name1 = true
    ∧ ((cm.SetValue name v).entryOf name1).map casemapEntry.value = some v
    ∧ (cm.Has name = false →
        (cm.SetValue name v).OriginalKey name1 = (name, true)
        ∧ (cm.SetValue name v).Len = cm.Len + 1)
    ∧ (∀ k, cm.OriginalKey name = (k, true) →
        (cm.SetValue name v).OriginalKey name1 = (k, true)
        ∧ (cm.SetValue name v).Len = cm.Len)
    ∧ (∀ key, key ≠ cm.casemap name →
        GoMap.get (cm.SetValue name v).innerMap key = GoMap.get cm.innerMap key)
    ∧ (cm.SetValue name v).casemap = cm.casemap := by
  have hc := casemapMap.SetValue_casemap cm name v
  have hg := casemapMap.SetValue_get cm name v (cm.casemap name)
  rw [if_pos rfl] at hg
  refine ⟨?_, ?_, ?_, ?_, ?_, hc⟩
  · simp only [casemapMap.Has, hc, hfold, hg]
  · simp only [casemapMap.entryOf, hc, hfold, hg, Option.map_some']
  · intro hno
    have hnone : GoMap.get cm.innerMap (cm.casemap name) = none := by
      unfold casemapMap.Has at hno
      cases h : GoMap.get cm.innerMap (cm.casemap name) with
      | none => rfl
      | some e => simp [h] at hno
    refine ⟨?_, ?_⟩
    · simp only [casemapMap.OriginalKey, hc, hfold, hg, hnone]
    · rw [casemapMap.SetValue_Len, hno]
      simp
  · intro k hk
    unfold casemapMap.OriginalKey at hk
    cases h : GoMap.get cm.innerMap (cm.casemap name) with
    | none => simp [h] at hk
    | some e =>
      simp only [h, Prod.mk.injEq, and_true] at hk
      refine ⟨?_, ?_⟩
      · simp only [casemapMap.OriginalKey, hc, hfold, hg, h, hk]
      · rw [casemapMap.SetValue_Len]
        simp [casemapMap.Has, h]
  · intro key hkey
    rw [casemapMap.SetValue_get, if_neg hkey]

/-- C12, under the ascii casemapping: after `SetValue("Foo", 1)` on the empty
map, `Has("foo")` is true and `OriginalKey("FOO")` is `"Foo"`. -/
theorem casemapMap_SetValue_witness :
    (casemapMap.SetValue ⟨[], casemapASCII⟩ [70, 111, 111] (1 : Nat)).Has [102, 111, 111] = true
    ∧ (casemapMap.SetValue ⟨[], casemapASCII⟩ [70, 111, 111] (1 : Nat)).OriginalKey [70, 79, 79]
        = ([70, 111, 111], true)
    ∧ (casemapMap.SetValue ⟨[], casemapASCII⟩ [70, 111, 111] (1 : Nat)).Len = 1 :=
  ⟨(casemapMap_SetValue ⟨[], casemapASCII⟩ [70, 111, 111] (1 : Nat) [102, 111, 111]
      (by decide)).1,
   ((casemapMap_SetValue ⟨[], casemapASCII⟩ [70, 111, 111] (1 : Nat) [70, 79, 79]
      (by decide)).2.2.1 (by decide)).1,
   by decide⟩

/-- C13 as stated fails: under the ascii casemapping, after `SetValue("Foo", 1)`
and then `SetValue("FOO", 2)` on the empty map, the two names have one canonical
form, the stored value is 2, and `OriginalKey("foo")` is `"Foo"`, the name
written first, not `"FOO"`, the name written last. -/
theorem casemapMap_SetValue_twice_counterexample :
    casemapASCII [70, 111, 111] = casemapASCII [70, 79, 79]
    ∧ (casemapMap.SetValue (casemapMap.SetValue ⟨[], casemapASCII⟩ [70, 111, 111] (1 : Nat))
        [70, 79, 79] 2).OriginalKey [102, 111, 111] = ([70, 111, 111], true)
    ∧ ((casemapMap.SetValue (casemapMap.SetValue ⟨[], casemapASCII⟩ [70, 111, 111] (1 : Nat))
        [70, 79, 79] 2).entryOf [102, 111, 111]).map casemapEntry.value = some 2 := by
  refine ⟨by decide, by decide, by decide⟩

/-- C13, as amended. The case-folding map keeps the first original name. For
names `a` and `b` of one canonical form, after `SetValue(a, v1)` followed by
`SetValue(b, v2)`, `OriginalKey` of any name of that canonical form is found
and returns `a` when no entry existed for the canonical form before the two
calls, and otherwise the original key stored before them; the stored value is
`v2`, the value written last. -/
theorem casemapMap_SetValue_twice {ν : Type} (cm : casemapMap ν) (a b : GoString) (v1 v2 : ν)
    (name1 : GoString)
    (hab : cm.casemap a = cm.casemap b) (hfold : cm.casemap name1 = cm.casemap a) :
    (cm.Has a = false →
        ((cm.SetValue a v1).SetValue b v2).OriginalKey name1 = (a, true))
    ∧ (∀ k, cm.OriginalKey a = (k, true) →
        ((cm.SetValue a v1).SetValue b v2).OriginalKey name1 = (k, true))
    ∧ (((cm.SetValue a v1).SetValue b v2).entryOf name1).map casemapEntry.value = some v2 := by
  have hc1 := casemapMap.SetValue_casemap cm a v1
  have hc2 := casemapMap.SetValue_casemap (cm.SetValue a v1) b v2
  have hg1 := casemapMap.SetValue_get cm a v1 (cm.casemap a)
  rw [if_pos rfl] at hg1
  have hg2 := casemapMap.SetValue_get (cm.SetValue a v1) b v2 (cm.casemap a)
  rw [hc1, ← hab, if_pos rfl, hg1] at hg2
  refine ⟨?_, ?_, ?_⟩
  · intro hno
    have hnone : GoMap.get cm.innerMap (cm.casemap a) = none := by
      unfold casemapMap.Has at hno
      cases h : GoMap.get cm.innerMap (cm.casemap a) with
      | none => rfl
      | some e => simp [h] at hno
    simp only [casemapMap.OriginalKey, hc2, hc1, hfold, hg2, hnone]
  · intro k hk
    unfold casemapMap.OriginalKey at hk
    cases h : GoMap.get cm.innerMap (cm.casemap a) with
    | none => simp [h] at hk
    | some e =>
      simp only [h, Prod.mk.injEq, and_true] at hk
      simp only [casemapMap.OriginalKey, hc2, hc1, hfold, hg2, h, hk]
  · simp only [casemapMap.entryOf, hc2, hc1, hfold, hg2, Option.map_some']

/-- C13, as amended, under the ascii casemapping: `"Foo"` then `"FOO"` written
on the empty map leave `"Foo"` as the original key. -/
theorem casemapMap_SetValue_twice_witness :
    (casemapMap.SetValue (casemapMap.SetValue ⟨[], casemapASCII⟩ [70, 111, 111] (1 : Nat))
        [70, 79, 79] 2).OriginalKey [102, 111, 111] = ([70, 111, 111], true) :=
  (casemapMap_SetValue_twice ⟨[], casemapASCII⟩ [70, 111, 111] [70, 79, 79] (1 : Nat) 2
    [102, 111, 111] (by decide) (by decide)).1 (by decide)


namespace casemapMap

variable {ν : Type}

theorem setCasemappingLoop_length_le (g : casemapping)
    (order : List (GoString × casemapEntry ν)) :
    ∀ acc : GoMap GoString (casemapEntry ν),
      (setCasemappingLoop g order acc).length ≤ acc.length + order.length := by
  induction order with
  | nil => intro acc; simp [setCasemappingLoop]
  | cons x rest ih =>
    intro acc
    obtain ⟨k, e⟩ := x
    simp only [setCasemappingLoop, List.length_cons]
    have h1 := ih (GoMap.set acc (g e.originalKey) e)
    have h2 := GoMap.length_set_le acc (g e.originalKey) e
    omega

theorem setCasemappingLoop_mem (g : casemapping) (order : List (GoString × casemapEntry ν)) :
    ∀ (acc : GoMap GoString (casemapEntry ν)) (x : GoString × casemapEntry ν),
      x ∈ setCasemappingLoop g order acc →
        x ∈ acc ∨ (x.1 = g x.2.originalKey ∧ ∃ oldKey, (oldKey, x.2) ∈ order) := by
  induction order with
  | nil => intro acc x hx; exact Or.inl hx
  | cons y rest ih =>
    intro acc x hx
    obtain ⟨k, e⟩ := y
    simp only [setCasemappingLoop] at hx
    rcases ih _ x hx with h | ⟨h1, oldKey, h2⟩
    · rcases GoMap.mem_set _ _ _ _ h with h3 | h3
      · exact Or.inl h3
      · subst h3
        exact Or.inr ⟨rfl, k, List.mem_cons_self _ _⟩
    · exact Or.inr ⟨h1, oldKey, List.mem_cons_of_mem _ h2⟩

theorem isSome_get_set (m : GoMap GoString (casemapEntry ν)) (k key : GoString)
    (e : casemapEntry ν) (h : (GoMap.get m key).isSome = true) :
    (GoMap.get (GoMap.set m k e) key).isSome = true := by
  by_cases hk : key = k
  · subst hk
    simp [GoMap.get_set_self]
  · rw [GoMap.get_set_other _ _ _ _ hk]
    exact h

theorem setCasemappingLoop_keeps (g : casemapping) (order : List (GoString × casemapEntry ν)) :
    ∀ (acc : GoMap GoString (casemapEntry ν)) (key : GoString),
      (GoMap.get acc key).isSome = true →
        (GoMap.get (setCasemappingLoop g order acc) key).isSome = true := by
  induction order with
  | nil => intro acc key h; exact h
  | cons y rest ih =>
    intro acc key h
    obtain ⟨k, e⟩ := y
    simp only [setCasemappingLoop]
    exact ih _ key (isSome_get_set acc _ key e h)

theorem setCasemappingLoop_has (g : casemapping) (order : List (GoString × casemapEntry ν)) :
    ∀ (acc : GoMap GoString (casemapEntry ν)) (x : GoString × casemapEntry ν),
      x ∈ order →
        (GoMap.get (setCasemappingLoop g order acc) (g x.2.originalKey)).isSome = true := by
  induction order with
  | nil => intro acc x hx; simp at hx
  | cons y rest ih =>
    intro acc x hx
    obtain ⟨k, e⟩ := y
    simp only [setCasemappingLoop]
    rcases List.mem_cons.mp hx with h | h
    · subst h
      exact setCasemappingLoop_keeps g rest _ _ (by simp [GoMap.get_set_self])
    · exact ih _ x h

theorem setCasemappingLoop_nodup (g : casemapping) (order : List (GoString × casemapEntry ν)) :
    ∀ acc : GoMap GoString (casemapEntry ν), (acc.map Prod.fst).Nodup →
      ((setCasemappingLoop g order acc).map Prod.fst).Nodup := by
  induction order with
  | nil => intro acc h; exact h
  | cons y rest ih =>
    intro acc h
    obtain ⟨k, e⟩ := y
    simp only [setCasemappingLoop]
    exact ih _ (GoMap.nodup_keys_set acc _ e h)

/-- When the new canonical forms of the entries still to visit are pairwise
distinct and none is in the index yet, every entry adds one to its length. -/
theorem setCasemappingLoop_length_eq (g : casemapping)
    (order : List (GoString × casemapEntry ν)) :
    ∀ acc : GoMap GoString (casemapEntry ν),
      (order.map fun x => g x.2.originalKey).Nodup →
      (∀ x ∈ order, g x.2.originalKey ∉ acc.map Prod.fst) →
      (setCasemappingLoop g order acc).length = acc.length + order.length := by
  induction order with
  | nil => intro acc _ _; simp [setCasemappingLoop]
  | cons y rest ih =>
    intro acc hnd hnew
    obtain ⟨k, e⟩ := y
    simp only [List.map_cons, List.nodup_cons] at hnd
    have hk : g e.originalKey ∉ acc.map Prod.fst := hnew (k, e) (List.mem_cons_self _ _)
    have hnone : GoMap.get acc (g e.originalKey) = none := (GoMap.get_eq_none_iff _ _).mpr hk
    simp only [setCasemappingLoop, List.length_cons]
    rw [ih (GoMap.set acc (g e.originalKey) e) hnd.2 ?_, GoMap.length_set_of_none _ _ _ hnone]
    · omega
    · intro x hx
      rw [GoMap.keys_set, if_neg hk]
      simp only [List.mem_append, List.mem_singleton, not_or]
      refine ⟨hnew x (List.mem_cons_of_mem _ hx), fun heq => ?_⟩
      exact hnd.1 (heq ▸ List.mem_map_of_mem (fun x => g x.2.originalKey) hx)

/-- In a well-formed map two entries with one original key are one entry, so
the original keys of the index are pairwise distinct. -/
theorem WF.nodup_originalKeys (cm : casemapMap ν) (hwf : cm.WF) :
    (cm.innerMap.map fun x => x.2.originalKey).Nodup := by
  obtain ⟨hnd, hkey⟩ := hwf
  have hmap : cm.innerMap.map Prod.fst
      = (cm.innerMap.map fun x => x.2.originalKey).map cm.casemap := by
    rw [List.map_map]
    apply List.map_congr_left
    intro x hx
    exact hkey x hx
  rw [hmap] at hnd
  exact List.Nodup.of_map _ hnd

end casemapMap


namespace casemapMap

variable {ν : Type}

theorem newCasemapMap_WF : (newCasemapMap ν).WF := by
  refine ⟨by simp [newCasemapMap], fun e he => ?_⟩
  simp [newCasemapMap] at he

theorem SetValue_WF (cm : casemapMap ν) (name : GoString) (v : ν) (hwf : cm.WF) :
    (cm.SetValue name v).WF := by
  obtain ⟨hnd, hkey⟩ := hwf
  cases hg : GoMap.get cm.innerMap (cm.casemap name) with
  | none =>
    simp only [SetValue, hg]
    refine ⟨GoMap.nodup_keys_set _ _ _ hnd, fun e he => ?_⟩
    rcases GoMap.mem_set _ _ _ _ he with h | h
    · exact hkey e h
    · subst h
      rfl
  | some entry =>
    simp only [SetValue, hg]
    refine ⟨GoMap.nodup_keys_set _ _ _ hnd, fun e he => ?_⟩
    rcases GoMap.mem_set _ _ _ _ he with h | h
    · exact hkey e h
    · subst h
      exact hkey (cm.casemap name, entry) (GoMap.get_some_mem _ _ entry hg)

theorem Delete_WF (cm : casemapMap ν) (name : GoString) (hwf : cm.WF) :
    (cm.Delete name).WF := by
  obtain ⟨hnd, hkey⟩ := hwf
  exact ⟨GoMap.nodup_keys_delete _ _ hnd, fun e he => hkey e (GoMap.mem_delete _ _ _ he)⟩

theorem SetCasemapping_WF (g : casemapping) (order : List (GoString × casemapEntry ν)) :
    (SetCasemapping g order).WF := by
  refine ⟨setCasemappingLoop_nodup g order [] (by simp), fun e he => ?_⟩
  rcases setCasemappingLoop_mem g order [] e he with h | h
  · simp at h
  · exact h.1

end casemapMap

/-- C14. `SetCasemapping` re-keys every entry. Let `cm` be a case-folding map
(its index holds no key twice and files every entry under the canonical form of
its original key) and let `order` be its entries in the order in which `range`
yields them. After `SetCasemapping(g)` the casemapping is `g`; every entry of
the new index is filed under `g` of its own original key and is an entry of the
old index; for every original key `k` stored before and every `name1` with
`g(name1) = g(k)`, `Has(name1)` is true; `Len` does not grow, and is unchanged
when `g` is injective on the stored original keys. The new map is again a
case-folding map. -/
theorem casemapMap_SetCasemapping {ν : Type} (cm : casemapMap ν) (g : casemapping)
    (order : List (GoString × casemapEntry ν))
    (horder : order.Perm cm.innerMap) (hwf : cm.WF) :
    (casemapMap.SetCasemapping g order).casemap = g
    ∧ (∀ key e, (key, e) ∈ (casemapMap.SetCasemapping g order).innerMap →
        key = g e.originalKey ∧ ∃ oldKey, (oldKey, e) ∈ cm.innerMap)
    ∧ (∀ oldKey e name1, (oldKey, e) ∈ cm.innerMap → g name1 = g e.originalKey →
        (casemapMap.SetCasemapping g order).Has name1 = true)
    ∧ (casemapMap.SetCasemapping g order).Len ≤ cm.Len
    ∧ ((∀ x ∈ cm.innerMap, ∀ y ∈ cm.innerMap,
          g x.2.originalKey = g y.2.originalKey → x.2.originalKey = y.2.originalKey) →
        (casemapMap.SetCasemapping g order).Len = cm.Len)
    ∧ (casemapMap.SetCasemapping g order).WF := by
  refine ⟨rfl, ?_, ?_, ?_, ?_, casemapMap.SetCasemapping_WF g order⟩
  · intro key e he
    rcases casemapMap.setCasemappingLoop_mem g order [] (key, e) he with h | ⟨h1, oldKey, h2⟩
    · simp at h
    · exact ⟨h1, oldKey, horder.mem_iff.mp h2⟩
  · intro oldKey e name1 he hfold
    have h := casemapMap.setCasemappingLoop_has g order [] (oldKey, e) (horder.mem_iff.mpr he)
    unfold casemapMap.Has
    simp only [casemapMap.SetCasemapping, hfold]
    cases hget : GoMap.get (casemapMap.setCasemappingLoop g order []) (g e.originalKey) with
    | none => simp [hget] at h
    | some _ => rfl
  · have h := casemapMap.setCasemappingLoop_length_le g order []
    simp only [casemapMap.Len, casemapMap.SetCasemapping]
    rw [← horder.length_eq]
    simpa using h
  · intro hinj
    have hok : (order.map fun x => x.2.originalKey).Nodup :=
      (horder.map _).nodup_iff.mpr (casemapMap.WF.nodup_originalKeys cm hwf)
    have hnd : (order.map fun x => g x.2.originalKey).Nodup := by
      have := List.Nodup.map_on (f := g) (l := order.map fun x => x.2.originalKey) (by
        intro a ha b hb hab
        obtain ⟨x, hx, rfl⟩ := List.mem_map.mp ha
        obtain ⟨y, hy, rfl⟩ := List.mem_map.mp hb
        exact hinj x (horder.mem_iff.mp hx) y (horder.mem_iff.mp hy) hab) hok
      rwa [List.map_map] at this
    have h := casemapMap.setCasemappingLoop_length_eq g order [] hnd (by simp)
    simp only [casemapMap.Len, casemapMap.SetCasemapping]
    rw [← horder.length_eq]
    simpa using h

/-- C14, from the none casemapping to ascii: the map holding one entry written
as `"Foo"` under `casemapNone` has `Has("foo")` false, and true after
`SetCasemapping(casemapASCII)`, with `Len` still 1. -/
theorem casemapMap_SetCasemapping_witness :
    (casemapMap.SetValue (newCasemapMap Nat) [70, 111, 111] 1).Has [102, 111, 111] = false
    ∧ (casemapMap.SetCasemapping casemapASCII
        (casemapMap.SetValue (newCasemapMap Nat) [70, 111, 111] 1).innerMap).Has
          [102, 111, 111] = true
    ∧ (casemapMap.SetCasemapping casemapASCII
        (casemapMap.SetValue (newCasemapMap Nat) [70, 111, 111] 1).innerMap).Len = 1 := by
  have h := casemapMap_SetCasemapping (casemapMap.SetValue (newCasemapMap Nat) [70, 111, 111] 1)
    casemapASCII (casemapMap.SetValue (newCasemapMap Nat) [70, 111, 111] 1).innerMap
    (List.Perm.refl _)
    (casemapMap.SetValue_WF _ _ _ casemapMap.newCasemapMap_WF)
  exact ⟨by decide,
    h.2.2.1 [70, 111, 111] ⟨[70, 111, 111], 1⟩ [102, 111, 111]
      (by simp [casemapMap.SetValue, newCasemapMap, GoMap.get, GoMap.set, casemapNone])
      (by decide),
    by decide⟩


/-! ## Claims on `channelModes.Format` -/

namespace channelModes

/-- The entries of an enumeration that hold a non-empty value. -/
theorem formatLoop_eq (order : List (Nat × GoString)) :
    ∀ st : formatState,
      formatLoop order st =
        { modesWithValues := st.modesWithValues
            ++ ((order.filter fun e => decide (e.2 ≠ [])).map fun e => stringOfByte e.1).flatten,
          modesWithoutValues := st.modesWithoutValues
            ++ ((order.filter fun e => decide (e.2 = [])).map fun e => stringOfByte e.1).flatten,
          parameters := st.parameters
            ++ (order.filter fun e => decide (e.2 ≠ [])).map Prod.snd } := by
  induction order with
  | nil => intro st; simp [formatLoop]
  | cons x rest ih =>
    intro st
    obtain ⟨mode, value⟩ := x
    by_cases hv : value = []
    · simp [formatLoop, hv, ih]
    · simp [formatLoop, hv, ih]

theorem flatten_stringOfByte_ascii (l : List (Nat × GoString)) (h : ∀ e ∈ l, e.1 < 128) :
    (l.map fun e => stringOfByte e.1).flatten = l.map Prod.fst := by
  induction l with
  | nil => rfl
  | cons x rest ih =>
    have hx : x.1 < 128 := h x (List.mem_cons_self _ _)
    simp only [List.map_cons, List.flatten_cons]
    rw [ih (fun e he => h e (List.mem_cons_of_mem _ he))]
    simp [stringOfByte, hx]

/-- On a table with ASCII keys the mode string is `+`, the keys with a value,
then the keys without, and the parameters are the values, in enumeration
order. -/
theorem Format_ascii (order : List (Nat × GoString)) (h : ∀ e ∈ order, e.1 < 128) :
    Format order =
      (43 :: (((order.filter fun e => decide (e.2 ≠ [])).map Prod.fst)
          ++ ((order.filter fun e => decide (e.2 = [])).map Prod.fst)),
        (order.filter fun e => decide (e.2 ≠ [])).map Prod.snd) := by
  unfold Format
  rw [formatLoop_eq]
  simp only [List.nil_append]
  rw [flatten_stringOfByte_ascii _ (fun e he => h e (List.mem_filter.mp he).1),
    flatten_stringOfByte_ascii _ (fun e he => h e (List.mem_filter.mp he).1)]

end channelModes

namespace GoMap

variable {κ ν : Type} [DecidableEq κ]

theorem get_of_mem_nodup (m : GoMap κ ν) (k : κ) (v : ν) (hnd : (m.map Prod.fst).Nodup)
    (hmem : (k, v) ∈ m) : get m k = some v := by
  induction m with
  | nil => simp at hmem
  | cons e rest ih =>
    obtain ⟨k1, v1⟩ := e
    simp only [List.map_cons, List.nodup_cons] at hnd
    rcases List.mem_cons.mp hmem with h | h
    · simp only [Prod.mk.injEq] at h
      simp [get, h.1, h.2]
    · have hne : k1 ≠ k := by
        intro heq
        subst heq
        exact hnd.1 (List.mem_map_of_mem Prod.fst h)
      simp only [get, hne, if_false]
      exact ih hnd.2 h

theorem get_perm (m1 m2 : GoMap κ ν) (k : κ) (hperm : m1.Perm m2)
    (hnd : (m2.map Prod.fst).Nodup) : get m1 k = get m2 k := by
  have hnd1 : (m1.map Prod.fst).Nodup := (hperm.map _).nodup_iff.mpr hnd
  cases h2 : get m2 k with
  | some v =>
    exact get_of_mem_nodup m1 k v hnd1 (hperm.mem_iff.mpr (get_some_mem m2 k v h2))
  | none =>
    cases h1 : get m1 k with
    | none => rfl
    | some v =>
      have := get_of_mem_nodup m2 k v hnd (hperm.mem_iff.mp (get_some_mem m1 k v h1))
      rw [h2] at this
      exact absurd this (by simp)

end GoMap

/-- C18. `channelModes.Format` on a key that is no ASCII byte. The conversion
`string(mode)` writes the two bytes of the UTF-8 encoding of the code point
200, so the table `{200: ""}` of one entry gives the mode string of the three
bytes `+`, 195, 136, and not the mode string of length `1 + 1` that holds the
key after the `+`. -/
theorem channelModes_Format_nonascii_key :
    channelModes.Format [(200, [])] = ([43, 195, 136], [])
    ∧ (channelModes.Format [(200, [])]).1.length = 3
    ∧ ([(200, [])] : channelModes).length = 1 := by
  refine ⟨by decide, by decide, by decide⟩

/-- `channelModes.Format` on a table `T` whose keys are ASCII bytes (below
128), where `string(mode)` is the byte itself. For every enumeration order of
its entries: the mode string is `+`, then the keys whose value is non-empty in
enumeration order, then the
keys whose value is empty; the keys after the `+` are the keys of the table,
each once, so the mode string has length `1 +` the number of entries; the
parameter list has one element per key with a non-empty value, and the `i`-th
parameter is the table value of the `i`-th letter after the `+`. -/
theorem channelModes_Format (T : channelModes) (order : List (Nat × GoString))
    (horder : order.Perm T) (hnodup : (T.map Prod.fst).Nodup)
    (hascii : ∀ e ∈ T, e.1 < 128) :
    channelModes.Format order =
      (43 :: (((order.filter fun e => decide (e.2 ≠ [])).map Prod.fst)
          ++ ((order.filter fun e => decide (e.2 = [])).map Prod.fst)),
        (order.filter fun e => decide (e.2 ≠ [])).map Prod.snd)
    ∧ ((channelModes.Format order).1.drop 1).Perm (T.map Prod.fst)
    ∧ (channelModes.Format order).1.length = 1 + T.length
    ∧ (channelModes.Format order).2.length
        = (order.filter fun e => decide (e.2 ≠ [])).length
    ∧ ∀ (i : Nat) (p : GoString), (channelModes.Format order).2[i]? = some p →
        p ≠ [] ∧ ∃ c, (channelModes.Format order).1[i + 1]? = some c
          ∧ GoMap.get T c = some p := by
  have hfmt := channelModes.Format_ascii order (fun e he => hascii e (horder.mem_iff.mp he))
  have hsplit : ((order.filter fun e => decide (e.2 ≠ []))
      ++ (order.filter fun e => decide (e.2 = []))).Perm order := by
    have h := List.filter_append_perm (fun e : Nat × GoString => decide (e.2 ≠ [])) order
    have hnot : (fun e : Nat × GoString => !decide (e.2 ≠ []))
        = (fun e : Nat × GoString => decide (e.2 = [])) := by
      funext e
      by_cases he : e.2 = [] <;> simp [he]
    rw [hnot] at h
    exact h
  have hkeys : (((order.filter fun e => decide (e.2 ≠ [])).map Prod.fst)
      ++ ((order.filter fun e => decide (e.2 = [])).map Prod.fst)).Perm (T.map Prod.fst) := by
    rw [← List.map_append]
    exact (hsplit.trans horder).map _
  refine ⟨hfmt, ?_, ?_, ?_, ?_⟩
  · rw [hfmt]
    exact hkeys
  · rw [hfmt]
    simp only [List.length_cons]
    rw [hkeys.length_eq, List.length_map]
    omega
  · rw [hfmt]
    simp
  · intro i p hp
    rw [hfmt] at hp ⊢
    have hp1 : ((order.filter fun e => decide (e.2 ≠ []))[i]?).map Prod.snd = some p := by
      rw [← List.getElem?_map]
      exact hp
    cases he : (order.filter fun e => decide (e.2 ≠ []))[i]? with
    | none =>
      rw [he] at hp1
      simp at hp1
    | some e =>
      rw [he] at hp1
      have hp : e.2 = p := by simpa using hp1
      have hmem : e ∈ order.filter fun e => decide (e.2 ≠ []) :=
        List.mem_iff_getElem?.mpr ⟨i, he⟩
      have hmem2 := List.mem_filter.mp hmem
      have hi : i < (order.filter fun e => decide (e.2 ≠ [])).length := by
        by_contra hc
        rw [List.getElem?_eq_none (by omega)] at he
        exact absurd he (by simp)
      refine ⟨?_, e.1, ?_, ?_⟩
      · rw [← hp]
        simpa using hmem2.2
      · simp only [List.getElem?_cons_succ]
        rw [List.getElem?_append_left (by simpa using hi), List.getElem?_map, he]
        rfl
      · rw [← hp]
        exact GoMap.get_of_mem_nodup T e.1 e.2 hnodup (horder.mem_iff.mp hmem2.1)

/-- `channelModes.Format` on the table `{k:"key", n:"", l:"5"}` enumerated in
that order: the mode string is `"+kln"` and the parameters are `"key"`, `"5"`. -/
theorem channelModes_Format_witness :
    channelModes.Format [(107, [107, 101, 121]), (110, []), (108, [53])]
      = ([43, 107, 108, 110], [[107, 101, 121], [53]])
    ∧ (channelModes.Format [(107, [107, 101, 121]), (110, []), (108, [53])]).1.length
      = 1 + 3 :=
  ⟨by decide,
   (channelModes_Format [(107, [107, 101, 121]), (110, []), (108, [53])]
      [(107, [107, 101, 121]), (110, []), (108, [53])] (List.Perm.refl _)
      (by decide) (by decide)).2.2.1⟩


/-! ## `Format` followed by `applyChannelModes` -/

theorem GoMap.set_of_not_mem {κ ν : Type} [DecidableEq κ] (m : GoMap κ ν) (k : κ) (v : ν)
    (h : k ∉ m.map Prod.fst) : GoMap.set m k v = m ++ [(k, v)] := by
  induction m with
  | nil => rfl
  | cons e rest ih =>
    obtain ⟨k1, v1⟩ := e
    simp only [List.map_cons, List.mem_cons, not_or] at h
    have hne : k1 ≠ k := fun heq => h.1 heq.symm
    simp [GoMap.set, hne, ih h.2]

/-- Writing entries with pairwise distinct keys, none of them in the table yet,
appends them. -/
theorem setAll_eq_append (l : List (Nat × GoString)) :
    ∀ t : channelModes, ((t ++ l).map Prod.fst).Nodup → setAll t l = t ++ l := by
  induction l with
  | nil => intro t _; simp [setAll]
  | cons e rest ih =>
    intro t hnd
    have hnot : e.1 ∉ t.map Prod.fst := by
      intro hmem
      rw [List.map_append, List.map_cons] at hnd
      have := (List.nodup_append.mp hnd).2.2
      exact this hmem (List.mem_cons_self _ _) 
    have hstep : setAll t (e :: rest) = setAll (GoMap.set t e.1 e.2) rest := rfl
    rw [hstep, GoMap.set_of_not_mem t e.1 e.2 hnot]
    have happ : t ++ [(e.1, e.2)] ++ rest = t ++ e :: rest := by simp
    rw [ih (t ++ [(e.1, e.2)]) (by rw [happ]; exact hnd), happ]

/-- The loop on the letters that carry a value: under `+`, each type-B or
type-C letter takes the next argument and stores it. -/
theorem scan_withValues (conn : upstreamConn) (members : membershipsCasemapMap)
    (modeStr : GoString) (l : List (Nat × GoString))
    (hl : ∀ e ∈ l, (e.1 ≠ 43 ∧ e.1 ≠ 45)
      ∧ (∀ r ∈ conn.availableMemberships, r.Mode ≠ e.1)
      ∧ (GoMap.get conn.availableChannelModes e.1 = some modeTypeB
        ∨ GoMap.get conn.availableChannelModes e.1 = some modeTypeC)) :
    ∀ (t : channelModes) (nm : GoMap Nat Unit) (pre : List GoString),
      scan modeStr (pre ++ l.map Prod.snd) (l.map Prod.fst)
          { ch := { conn := conn, modes := some t, Members := members },
            needMarshaling := nm, nextArgument := pre.length, plusMinus := 43 }
        = .ok { ch := { conn := conn, modes := some (setAll t l), Members := members },
                needMarshaling := nm, nextArgument := pre.length + l.length,
                plusMinus := 43 } := by
  induction l with
  | nil => intro t nm pre; simp [scan, setAll]
  | cons e rest ih =>
    intro t nm pre
    obtain ⟨⟨h1, h2⟩, hmem, hBC⟩ := hl e (List.mem_cons_self _ _)
    have hm := findMembership_eq_none e.1 _ hmem
    have hlt : pre.length < (pre ++ (e :: rest).map Prod.snd).length := by simp
    have harg : (pre ++ (e :: rest).map Prod.snd).get ⟨pre.length, hlt⟩ = e.2 := by
      simp only [List.get_eq_getElem, List.map_cons]
      rw [List.getElem_append_right (Nat.le_refl _)]
      simp
    have hstep : step modeStr (pre ++ (e :: rest).map Prod.snd)
        { ch := { conn := conn, modes := some t, Members := members },
          needMarshaling := nm, nextArgument := pre.length, plusMinus := 43 } e.1
        = .ok { ch := { conn := conn, modes := some (GoMap.set t e.1 e.2), Members := members },
                needMarshaling := nm, nextArgument := pre.length + 1, plusMinus := 43 } := by
      rcases hBC with h | h <;>
        simp only [step, h1, h2, or_self, if_false, hm, h, hlt, dif_pos, harg, setMode] <;>
        simp
    have hargs : pre ++ (e :: rest).map Prod.snd = (pre ++ [e.2]) ++ rest.map Prod.snd := by
      simp
    have hih := ih (fun x hx => hl x (List.mem_cons_of_mem _ hx)) (GoMap.set t e.1 e.2) nm
      (pre ++ [e.2])
    simp only [List.length_append, List.length_singleton] at hih
    simp only [List.map_cons, scan]
    rw [← List.map_cons, hstep]
    simp only
    rw [hargs, hih]
    simp only [List.length_cons, setAll, List.foldl_cons]
    congr 2
    omega

/-- The loop on the letters that carry no value, met with no argument left:
under `+`, each type-B, type-C or type-D letter is stored with the empty
string. -/
theorem scan_withoutValues (conn : upstreamConn) (members : membershipsCasemapMap)
    (modeStr : GoString) (arguments : List GoString) (l : List (Nat × GoString))
    (hl : ∀ e ∈ l, e.2 = [] ∧ (e.1 ≠ 43 ∧ e.1 ≠ 45)
      ∧ (∀ r ∈ conn.availableMemberships, r.Mode ≠ e.1)
      ∧ (GoMap.get conn.availableChannelModes e.1 = some modeTypeB
        ∨ GoMap.get conn.availableChannelModes e.1 = some modeTypeC
        ∨ GoMap.get conn.availableChannelModes e.1 = some modeTypeD)) :
    ∀ (t : channelModes) (nm : GoMap Nat Unit) (next : Nat), arguments.length ≤ next →
      ∃ next1, arguments.length ≤ next1
        ∧ scan modeStr arguments (l.map Prod.fst)
            { ch := { conn := conn, modes := some t, Members := members },
              needMarshaling := nm, nextArgument := next, plusMinus := 43 }
          = .ok { ch := { conn := conn, modes := some (setAll t l), Members := members },
                  needMarshaling := nm, nextArgument := next1, plusMinus := 43 } := by
  induction l with
  | nil => intro t nm next hn; exact ⟨next, hn, by simp [scan, setAll]⟩
  | cons e rest ih =>
    intro t nm next hn
    obtain ⟨hv, ⟨h1, h2⟩, hmem, hcls⟩ := hl e (List.mem_cons_self _ _)
    have hm := findMembership_eq_none e.1 _ hmem
    have hnlt : ¬ next < arguments.length := Nat.not_lt.mpr hn
    have hstep : ∃ next2, arguments.length ≤ next2
        ∧ step modeStr arguments
            { ch := { conn := conn, modes := some t, Members := members },
              needMarshaling := nm, nextArgument := next, plusMinus := 43 } e.1
          = .ok { ch := { conn := conn, modes := some (GoMap.set t e.1 e.2),
                          Members := members },
                  needMarshaling := nm, nextArgument := next2, plusMinus := 43 } := by
      rcases hcls with h | h | h
      · exact ⟨next + 1, by omega, by simp [step, h1, h2, hm, h, hnlt, setMode, hv]⟩
      · exact ⟨next + 1, by omega, by simp [step, h1, h2, hm, h, hnlt, setMode, hv]⟩
      · exact ⟨next, hn, by simp [step, h1, h2, hm, h, setMode, hv]⟩
    obtain ⟨next2, hn2, hs⟩ := hstep
    obtain ⟨next1, hn1, hrest⟩ := ih (fun x hx => hl x (List.mem_cons_of_mem _ hx))
      (GoMap.set t e.1 e.2) nm next2 hn2
    refine ⟨next1, hn1, ?_⟩
    simp only [List.map_cons, scan]
    rw [hs]
    simp only
    rw [hrest]
    rfl

/-- C20. `Format` followed by `applyChannelModes` on a key that is no ASCII
byte. With the byte 200 classified type D and no rank, the table `{200: ""}`
meets the conditions of the claim; `Format` gives the mode string of the bytes
`+`, 195, 136 and no parameter, and applying it to a channel with an empty
table succeeds and leaves the table empty, where the table `T` holds the key
200: the round trip is lost. -/
theorem Format_applyChannelModes_nonascii_key :
    GoMap.get [(200, modeTypeD)] 200 = some modeTypeD
    ∧ channelModes.Format [(200, [])] = ([43, 195, 136], [])
    ∧ (applyChannelModes
        { conn := { availableChannelModes := [(200, modeTypeD)], availableMemberships := [] },
          modes := some [], Members := newCasemapMap memberships }
        (channelModes.Format [(200, [])]).1 (channelModes.Format [(200, [])]).2).ch.modes
        = some []
    ∧ (applyChannelModes
        { conn := { availableChannelModes := [(200, modeTypeD)], availableMemberships := [] },
          modes := some [], Members := newCasemapMap memberships }
        (channelModes.Format [(200, [])]).1 (channelModes.Format [(200, [])]).2).err = none
    ∧ GoMap.get ([(200, [])] : channelModes) 200 = some [] := by
  refine ⟨by decide, by decide, by decide, by decide, by decide⟩

/-- `Format` followed by `applyChannelModes` is a round trip on tables with
ASCII keys, where `string(mode)` is the byte itself. Let `T` be a mode table
whose keys are ASCII bytes (below 128), each classified type B, C or D, no membership letter and no sign
character, and whose keys with a non-empty value are type B or C. For every
enumeration order used by `Format`, applying the mode string and parameters
that `Format` returns to a channel with an empty, non-nil mode table succeeds
with an empty `needMarshaling`, changes neither members nor connection, and
leaves a table that holds the entries of `T` and reads as `T` at every key. -/
theorem Format_applyChannelModes_roundtrip (conn : upstreamConn)
    (members : membershipsCasemapMap) (T : channelModes) (order : List (Nat × GoString))
    (horder : order.Perm T) (hnodup : (T.map Prod.fst).Nodup)
    (hascii : ∀ e ∈ T, e.1 < 128)
    (hkeys : ∀ e ∈ T, (e.1 ≠ 43 ∧ e.1 ≠ 45)
      ∧ (∀ r ∈ conn.availableMemberships, r.Mode ≠ e.1)
      ∧ (GoMap.get conn.availableChannelModes e.1 = some modeTypeB
        ∨ GoMap.get conn.availableChannelModes e.1 = some modeTypeC
        ∨ GoMap.get conn.availableChannelModes e.1 = some modeTypeD))
    (hvals : ∀ e ∈ T, e.2 ≠ [] →
      (GoMap.get conn.availableChannelModes e.1 = some modeTypeB
        ∨ GoMap.get conn.availableChannelModes e.1 = some modeTypeC)) :
    ∃ T1 : channelModes,
      applyChannelModes { conn := conn, modes := some [], Members := members }
          (channelModes.Format order).1 (channelModes.Format order).2
        = { ch := { conn := conn, modes := some T1, Members := members },
            needMarshaling := some [], err := none }
      ∧ T1.Perm T
      ∧ ∀ c, GoMap.get T1 c = GoMap.get T c := by
  have hfmt := channelModes.Format_ascii order (fun e he => hascii e (horder.mem_iff.mp he))
  have hsplit : ((order.filter fun e => decide (e.2 ≠ []))
      ++ (order.filter fun e => decide (e.2 = []))).Perm order := by
    have h := List.filter_append_perm (fun e : Nat × GoString => decide (e.2 ≠ [])) order
    have hnot : (fun e : Nat × GoString => !decide (e.2 ≠ []))
        = (fun e : Nat × GoString => decide (e.2 = [])) := by
      funext e
      by_cases he : e.2 = [] <;> simp [he]
    rw [hnot] at h
    exact h
  have hpermT := hsplit.trans horder
  have hnd : ((([] : channelModes) ++ ((order.filter fun e => decide (e.2 ≠ []))
      ++ (order.filter fun e => decide (e.2 = [])))).map Prod.fst).Nodup := by
    rw [List.nil_append]
    exact (hpermT.map _).nodup_iff.mpr hnodup
  have hwv := scan_withValues conn members (channelModes.Format order).1
    (order.filter fun e => decide (e.2 ≠ []))
    (fun e he => by
      have hm := List.mem_filter.mp he
      have hT := horder.mem_iff.mp hm.1
      have hne : e.2 ≠ [] := by simpa using hm.2
      exact ⟨(hkeys e hT).1, (hkeys e hT).2.1, hvals e hT hne⟩)
    [] [] []
  obtain ⟨next1, _, hwo⟩ := scan_withoutValues conn members (channelModes.Format order).1
    ((order.filter fun e => decide (e.2 ≠ [])).map Prod.snd)
    (order.filter fun e => decide (e.2 = []))
    (fun e he => by
      have hm := List.mem_filter.mp he
      have hT := horder.mem_iff.mp hm.1
      have hne : e.2 = [] := by simpa using hm.2
      exact ⟨hne, (hkeys e hT).1, (hkeys e hT).2.1, (hkeys e hT).2.2⟩)
    (setAll [] (order.filter fun e => decide (e.2 ≠ []))) []
    (0 + (order.filter fun e => decide (e.2 ≠ [])).length) (by simp)
  have hall : setAll (setAll [] (order.filter fun e => decide (e.2 ≠ [])))
      (order.filter fun e => decide (e.2 = []))
      = (order.filter fun e => decide (e.2 ≠ [])) ++ (order.filter fun e => decide (e.2 = [])) := by
    have h1 : setAll (setAll [] (order.filter fun e => decide (e.2 ≠ [])))
        (order.filter fun e => decide (e.2 = []))
        = setAll [] ((order.filter fun e => decide (e.2 ≠ []))
            ++ (order.filter fun e => decide (e.2 = []))) := by
      simp [setAll, List.foldl_append]
    rw [h1, setAll_eq_append _ [] hnd, List.nil_append]
  refine ⟨(order.filter fun e => decide (e.2 ≠ [])) ++ (order.filter fun e => decide (e.2 = [])),
    ?_, hpermT, fun c => GoMap.get_perm _ _ c hpermT hnodup⟩
  simp only [List.nil_append, List.length_nil] at hwv
  rw [hall] at hwo
  have hscan : scan (channelModes.Format order).1 (channelModes.Format order).2
      (channelModes.Format order).1
      (scanState.init { conn := conn, modes := some [], Members := members })
      = .ok { ch := { conn := conn,
                      modes := some ((order.filter fun e => decide (e.2 ≠ []))
                        ++ (order.filter fun e => decide (e.2 = []))),
                      Members := members },
              needMarshaling := [], nextArgument := next1, plusMinus := 43 } := by
    have hargs : (channelModes.Format order).2
        = (order.filter fun e => decide (e.2 ≠ [])).map Prod.snd := by rw [hfmt]
    have hstr : (channelModes.Format order).1
        = [43] ++ (((order.filter fun e => decide (e.2 ≠ [])).map Prod.fst)
          ++ ((order.filter fun e => decide (e.2 = [])).map Prod.fst)) := by rw [hfmt]; rfl
    rw [hargs]
    conv_lhs => arg 3; rw [hstr]
    rw [scan_append]
    have hsign : scan (channelModes.Format order).1
        ((order.filter fun e => decide (e.2 ≠ [])).map Prod.snd) [43]
        (scanState.init { conn := conn, modes := some [], Members := members })
        = .ok { ch := { conn := conn, modes := some [], Members := members },
                needMarshaling := [], nextArgument := 0, plusMinus := 43 } := by
      simp [scan, step, scanState.init]
    rw [hsign]
    simp only
    rw [scan_append, hwv]
    simp only
    exact hwo
  unfold applyChannelModes
  rw [hscan]

/-- The round trip on the standard tables: the table `{k:"key", n:"", l:"5"}`
is formatted as `"+kln"` with the parameters `"key"`, `"5"`, and applying these
to a channel with an empty table gives its three entries back. -/
theorem Format_applyChannelModes_roundtrip_witness :
    (∃ T1 : channelModes,
      applyChannelModes { conn := stdConn, modes := some [], Members := newCasemapMap memberships }
          (channelModes.Format [(107, [107, 101, 121]), (110, []), (108, [53])]).1
          (channelModes.Format [(107, [107, 101, 121]), (110, []), (108, [53])]).2
        = { ch := { conn := stdConn, modes := some T1, Members := newCasemapMap memberships },
            needMarshaling := some [], err := none }
      ∧ T1.Perm [(107, [107, 101, 121]), (110, []), (108, [53])]
      ∧ ∀ c, GoMap.get T1 c = GoMap.get [(107, [107, 101, 121]), (110, []), (108, [53])] c)
    ∧ (applyChannelModes (stdChannel (some []))
          (channelModes.Format [(107, [107, 101, 121]), (110, []), (108, [53])]).1
          (channelModes.Format [(107, [107, 101, 121]), (110, []), (108, [53])]).2).ch.modes
        = some [(107, [107, 101, 121]), (108, [53]), (110, [])] :=
  ⟨Format_applyChannelModes_roundtrip stdConn (newCasemapMap memberships)
      [(107, [107, 101, 121]), (110, []), (108, [53])]
      [(107, [107, 101, 121]), (110, []), (108, [53])] (List.Perm.refl _)
      (by decide) (by decide) (by decide) (by decide),
   by decide⟩


/-- C21. `parseChannelStatus` is total only on non-empty input. For every
non-empty string `s` the index expression `s[0]` is in range and the call
returns either a status (one of `=`, `@`, `*`, with a nil error) or an error
(with the zero status). For the empty string the check `len(s) > 1` does not
reject it and `s[0]` is out of range, so the call returns neither a status nor
an error. The call returns nothing exactly on the empty string. -/
theorem parseChannelStatus_total_on_nonempty (s : GoString) :
    (s ≠ [] →
        (∃ c, s[0]? = some c)
        ∧ ((∃ cs, parseChannelStatus s = some (cs, none)
              ∧ (cs = channelPublic ∨ cs = channelSecret ∨ cs = channelPrivate))
          ∨ ∃ e, parseChannelStatus s = some (0, some e)))
    ∧ (¬(([] : GoString).length > 1)
        ∧ ([] : GoString)[0]? = none
        ∧ parseChannelStatus [] = none)
    ∧ (parseChannelStatus s = none ↔ s = []) := by
  refine ⟨fun hs => ?_, ⟨by decide, rfl, rfl⟩, ?_⟩
  · cases s with
    | nil => exact absurd rfl hs
    | cons c rest =>
      refine ⟨⟨c, by simp⟩, ?_⟩
      by_cases hlen : (c :: rest).length > 1
      · exact Or.inr ⟨.moreThanOneCharacter (c :: rest),
          by simp only [parseChannelStatus, hlen, if_true]⟩
      · by_cases hc : c = channelPublic ∨ c = channelSecret ∨ c = channelPrivate
        · exact Or.inl ⟨c, by simp only [parseChannelStatus, hlen, if_false, hc, if_true], hc⟩
        · exact Or.inr ⟨.unknownStatus (c :: rest),
            by simp only [parseChannelStatus, hlen, if_false, hc]⟩
  · constructor
    · intro h
      cases s with
      | nil => rfl
      | cons c rest =>
        exfalso
        by_cases hlen : (c :: rest).length > 1
        · simp only [parseChannelStatus, hlen, if_true] at h
          exact absurd h (by simp)
        · by_cases hc : c = channelPublic ∨ c = channelSecret ∨ c = channelPrivate
          · simp only [parseChannelStatus, hlen, if_false, hc, if_true] at h
            exact absurd h (by simp)
          · simp only [parseChannelStatus, hlen, if_false, hc] at h
            exact absurd h (by simp)
    · intro h
      subst h
      rfl

/-- C21, on concrete strings: `"@"` gives the secret status, `"?"` and `"=x"`
give an error, and the empty string gives neither. -/
theorem parseChannelStatus_total_on_nonempty_witness :
    ((∃ c, ([64] : GoString)[0]? = some c)
      ∧ ((∃ cs, parseChannelStatus [64] = some (cs, none)
            ∧ (cs = channelPublic ∨ cs = channelSecret ∨ cs = channelPrivate))
        ∨ ∃ e, parseChannelStatus [64] = some (0, some e)))
    ∧ parseChannelStatus [64] = some (64, none)
    ∧ parseChannelStatus [63] = some (0, some (.unknownStatus [63]))
    ∧ parseChannelStatus [61, 120] = some (0, some (.moreThanOneCharacter [61, 120]))
    ∧ parseChannelStatus [] = none :=
  ⟨(parseChannelStatus_total_on_nonempty [64]).1 (by decide),
    by decide, by decide, by decide, by decide⟩


end Soju
